import Mathlib

/-!
Shallow embedding of the core algorithms of the `sizeof` catalog viewer:

* the catalog tree builder (`fetchCatalog` in `src/src/src/utils/dataLoader.ts`),
* the fuzzy tree filter (`filterTree` / `filteredCatalog` in
  `src/src/components/Sidebar.tsx`),
* the template substitution engine and its legacy fallback pass
  (`SvgRenderer` in `src/src/components/SvgRenderer.tsx`),
* the component loader (`fetchComponentData` in `dataLoader.ts`).

JavaScript objects with optional fields are embedded with `Option`; the
distinction between an absent `children` field (`undefined`) and an empty
array matters to the code (`if (node.children)` is true for `[]`) and is
kept.  Mutation-style code is translated to explicit functional rebuilding;
iteration order of `Object.entries` / `forEach` is the list order.
-/

set_option maxHeartbeats 1000000

namespace SizeofSpec

/-- One node of the catalog tree, mirroring the `CatalogItem` interface
(`id`, `name`, optional `path`, optional `children`). -/
inductive CatalogItem : Type where
  | mk (id : String) (name : String) (path : Option String)
       (children : Option (List CatalogItem)) : CatalogItem

def CatalogItem.id : CatalogItem → String
  | .mk i _ _ _ => i

def CatalogItem.name : CatalogItem → String
  | .mk _ n _ _ => n

def CatalogItem.path : CatalogItem → Option String
  | .mk _ _ p _ => p

def CatalogItem.children : CatalogItem → Option (List CatalogItem)
  | .mk _ _ _ c => c

/-- The node's child list, `[]` when the `children` field is absent. -/
def CatalogItem.childList (n : CatalogItem) : List CatalogItem :=
  n.children.getD []

/-- JavaScript string split on a separator predicate: pieces between
separator characters, empty pieces preserved, `"".split(sep) = [""]`. -/
def splitChars (p : Char → Bool) : List Char → List (List Char)
  | [] => [[]]
  | c :: cs =>
    match splitChars p cs with
    | [] => [[]]
    | piece :: rest => if p c then [] :: piece :: rest else (c :: piece) :: rest

/-- JavaScript `Array.prototype.join(' ')`. -/
def joinSpace : List String → String
  | [] => ""
  | [w] => w
  | w :: ws => w ++ " " ++ joinSpace ws

/-- The per-word step of `formatLabel`: `word.charAt(0).toUpperCase() + word.slice(1)`
(`""` stays `""`). -/
def capitalizeWord : List Char → String
  | [] => ""
  | c :: cs => String.mk (c.toUpper :: cs)

/-- Function `formatLabel` from `dataLoader.ts`: split on `-`/`_`, capitalize each
word's first letter, join with spaces. -/
def formatLabel (slug : String) : String :=
  joinSpace ((splitChars (fun c => c == '-' || c == '_') slug.data).map capitalizeWord)

/-- JavaScript `fullPath.split('/')`. -/
def segsOf (p : String) : List String :=
  (splitChars (fun c => c == '/') p.data).map String.mk

/-- The whitespace class used by the code (the ASCII part of JavaScript's
`\s` / `trim` whitespace). -/
def isSpaceChar (c : Char) : Bool :=
  c == ' ' || c == '\t' || c == '\n' || c == '\r' || c == '\x0b' || c == '\x0c'

/-- JavaScript `String.prototype.trim()`: strip leading and trailing whitespace. -/
def trimJS (s : String) : String :=
  String.mk (((s.data.dropWhile isSpaceChar).reverse.dropWhile isSpaceChar).reverse)

/-- Whether `l` starts with the character sequence `pre`. -/
def leadsWith : List Char → List Char → Bool
  | [], _ => true
  | _ :: _, [] => false
  | a :: as, b :: bs => a == b && leadsWith as bs

/-- Update the first element satisfying `p` (the node `items.find(...)`
returns) in place, leaving the rest of the list unchanged. -/
def updateFirst (p : CatalogItem → Bool) (f : CatalogItem → CatalogItem) :
    List CatalogItem → List CatalogItem
  | [] => []
  | x :: xs => if p x then f x :: xs else x :: updateFirst p f xs

/-- The leaf branch of the path walk: `node.path = fullPath; delete node.children`. -/
def setLeaf (fullPath : String) : CatalogItem → CatalogItem
  | .mk i n _ _ => .mk i n (some fullPath) none

/-- One `componentPaths.forEach` iteration of `fetchCatalog`, walking the
segment list left to right.  At each level the first sibling whose `id`
equals the segment is reused (`findOrCreateNode`), otherwise a fresh node
`{id, name: formatLabel(id), children: []}` is pushed at the end.  At the
final segment the node becomes a leaf (`path` set, `children` deleted);
otherwise the walk continues inside `node.children` (created as `[]` when
the field was absent). -/
def insertSegs (fullPath : String) : List String → List CatalogItem → List CatalogItem
  | [], items => items
  | [part], items =>
    match items.find? (fun n => n.id == part) with
    | some _ => updateFirst (fun n => n.id == part) (setLeaf fullPath) items
    | none => items ++ [.mk part (formatLabel part) (some fullPath) none]
  | part :: rest, items =>
    match items.find? (fun n => n.id == part) with
    | some _ =>
      updateFirst (fun n => n.id == part)
        (fun m => .mk m.id m.name m.path (some (insertSegs fullPath rest m.childList)))
        items
    | none =>
      items ++ [.mk part (formatLabel part) none (some (insertSegs fullPath rest []))]

/-- The tree-building part of `fetchCatalog` (lines 60–88 of
`dataLoader.ts`): fold every component path into the root list, in input
order. -/
def buildCatalog (paths : List String) : List CatalogItem :=
  paths.foldl (fun items p => insertSegs p (segsOf p) items) []

/-- Follow a path's raw segment ids from the roots: at each level pick the
first sibling whose `id` is the segment (the same first-match rule that
`findOrCreateNode` uses) and descend into its `children`.  Returns the node
reached at the last segment. -/
def followSegs : List CatalogItem → List String → Option CatalogItem
  | _, [] => none
  | items, [part] => items.find? (fun n => n.id == part)
  | items, part :: rest =>
    match items.find? (fun n => n.id == part) with
    | none => none
    | some n => followSegs n.childList rest

/-- All nodes of a forest, each node followed by its descendants. -/
def forestNodes : List CatalogItem → List CatalogItem
  | [] => []
  | .mk i nm p none :: rest => .mk i nm p none :: forestNodes rest
  | .mk i nm p (some cs) :: rest =>
    .mk i nm p (some cs) :: (forestNodes cs ++ forestNodes rest)

/-- Returns `true` when `i` is the `id` of no node in the list. -/
def notMemId (i : String) : List CatalogItem → Bool
  | [] => true
  | t :: ts => (t.id != i) && notMemId i ts

/-- Sibling ids are pairwise distinct at every level of the forest. -/
def uniqueIdsF : List CatalogItem → Bool
  | [] => true
  | .mk i nm p none :: rest => notMemId i rest && uniqueIdsF rest
  | .mk i nm p (some cs) :: rest => notMemId i rest && (uniqueIdsF cs && uniqueIdsF rest)

/-- Segment-list prefix test (`segPre p q` ⟺ `p` is a prefix of `q`). -/
def segPre : List String → List String → Bool
  | [], _ => true
  | _ :: _, [] => false
  | a :: as, b :: bs => a == b && segPre as bs

/-- Function `filterTree` from `Sidebar.tsx` (lines 117–135), with the fuse.js match
set abstracted into the predicate `matched`.  A node whose `children` field
is present (a JavaScript array is truthy even when empty) keeps a copy of
itself carrying the recursively filtered children when those are non-empty;
a node without `children` is kept, verbatim, exactly when it is matched. -/
def filterTree (matched : CatalogItem → Bool) : List CatalogItem → List CatalogItem
  | [] => []
  | .mk i nm p (some cs) :: rest =>
    if (filterTree matched cs).length > 0 then
      .mk i nm p (some (filterTree matched cs)) :: filterTree matched rest
    else filterTree matched rest
  | .mk i nm p none :: rest =>
    if matched (.mk i nm p none) then .mk i nm p none :: filterTree matched rest
    else filterTree matched rest

/-- The `filteredCatalog` memo of `Sidebar.tsx` (lines 76–78; 117–135):
an empty-after-trim search term returns the catalog itself, otherwise the
tree is filtered against the match set. -/
def filteredCatalog (matched : CatalogItem → Bool) (catalog : List CatalogItem)
    (searchTerm : String) : List CatalogItem :=
  if trimJS searchTerm = "" then catalog else filterTree matched catalog

/-- Strip the exact character sequence `k` from the front of a string,
returning the remainder on success. -/
def stripLead : List Char → List Char → Option (List Char)
  | [], cs => some cs
  | _ :: _, [] => none
  | k :: ks, c :: cs => if c = k then stripLead ks cs else none

/-- Matcher for one occurrence of the regular expression
`{{\s*KEY\s*}}` at the head of the string (from `SvgRenderer.tsx`,
lines 22 and 26): two opening braces, any run of whitespace, the key
verbatim, any run of whitespace, two closing braces.  Returns the rest of
the string after the match.  This reproduces the JavaScript regex for keys
that do not start with a whitespace character (the greedy `\s*` then stops
exactly at the key). -/
def matchPH (key : List Char) : List Char → Option (List Char)
  | c1 :: c2 :: rest =>
    if c1 = '{' ∧ c2 = '{' then
      match stripLead key (rest.dropWhile isSpaceChar) with
      | some r2 =>
        match r2.dropWhile isSpaceChar with
        | c3 :: c4 :: r4 => if c3 = '}' ∧ c4 = '}' then some r4 else none
        | _ => none
      | none => none
    else none
  | _ => none

/-- JavaScript `finalSvg.replace(regex, val)` with a global regex: scan left to right,
replace every non-overlapping occurrence, never rescanning replacement
text. -/
def replacePHAux (key val : List Char) : List Char → List Char
  | [] => []
  | c :: cs =>
    match h : matchPH key (c :: cs) with
    | some rest => val ++ replacePHAux key val rest
    | none => c :: replacePHAux key val cs
  termination_by l => l.length
  decreasing_by
  · have stripLen : ∀ (k l r : List Char), stripLead k l = some r → r.length ≤ l.length := by
      intro k
      induction k with
      | nil => intro l r hr; simp [stripLead] at hr; simp [hr]
      | cons a ks ih =>
        intro l r hr
        cases l with
        | nil => simp [stripLead] at hr
        | cons c cs =>
          simp only [stripLead] at hr
          split at hr
          · exact Nat.le_trans (ih _ _ hr) (Nat.le_succ _)
          · simp at hr
    have hlen : ∀ (k l r : List Char), matchPH k l = some r → r.length < l.length := by
      intro k l r hr
      cases l with
      | nil => simp [matchPH] at hr
      | cons c1 t1 =>
      cases t1 with
      | nil => simp [matchPH] at hr
      | cons c2 rest1 =>
        simp only [matchPH] at hr
        split at hr
        · cases hs : stripLead k (rest1.dropWhile isSpaceChar) with
          | none => simp [hs] at hr
          | some r2 =>
            simp only [hs] at hr
            have h2 : r2.length ≤ rest1.length :=
              Nat.le_trans (stripLen _ _ _ hs)
                (List.Sublist.length_le (List.dropWhile_sublist isSpaceChar))
            cases hd : r2.dropWhile isSpaceChar with
            | nil => simp [hd] at hr
            | cons c3 t =>
              cases t with
              | nil => simp [hd] at hr
              | cons c4 r4 =>
                simp only [hd] at hr
                split at hr
                · injection hr with hr'
                  subst hr'
                  have h3 : r4.length + 2 ≤ r2.length := by
                    have hsub := List.Sublist.length_le
                      (List.dropWhile_sublist (l := r2) isSpaceChar)
                    rw [hd] at hsub; simpa using hsub
                  simp only [List.length_cons]
                  omega
                · simp at hr
        · simp at hr
    exact hlen _ _ _ h
  · simp

/-- String-level wrapper for one global regex replacement. -/
def replacePH (key val doc : String) : String :=
  String.mk (replacePHAux key.data val.data doc.data)

/-- Whether the pattern `{{\s*KEY\s*}}` occurs anywhere in the string. -/
def containsPH (key : List Char) : List Char → Bool
  | [] => false
  | c :: cs => (matchPH key (c :: cs)).isSome || containsPH key cs

/-- First-match lookup in a key/value list (a JavaScript object's keys are
unique, so this is plain `units[key]`). -/
def lookupStr (m : List (String × String)) (k : String) : Option String :=
  (m.find? (fun kv => kv.1 == k)).map (fun kv => kv.2)

/-- The display value of `SvgRenderer.tsx` lines 27–31: the value string,
with `" " ++ unit` appended when `units[key]` is present and truthy (a
declared empty-string unit is falsy and is ignored). -/
def displayValueOf (units : List (String × String)) (key value : String) : String :=
  match lookupStr units key with
  | some u => if u = "" then value else value ++ " " ++ u
  | none => value

/-- One `Object.entries(data).forEach` iteration of the substitution pass
(`SvgRenderer.tsx` lines 20–34): first every `{{ key_raw }}` occurrence is
replaced by the bare value, then every `{{ key }}` occurrence by the
display value.  Values are represented by their `String(value)` form. -/
def applyEntry (units : List (String × String)) (doc : String) (key value : String) : String :=
  replacePH key (displayValueOf units key value) (replacePH (key ++ "_raw") value doc)

/-- The placeholder-substitution pass of `SvgRenderer`: fold every
`data` entry over the document, in entry order. -/
def renderSvg (data units : List (String × String)) (svg : String) : String :=
  data.foldl (fun doc kv => applyEntry units doc kv.1 kv.2) svg

/-- A DOM element as the legacy fallback sees it: its `id` attribute and
its text content, listed in document order. -/
structure DomElement where
  id : String
  text : String

/-- DOM `querySelector('#' + targetId)` followed by `element.textContent = val`:
only the first element in document order whose id matches is rewritten. -/
def setTextFirst (targetId val : String) : List DomElement → List DomElement
  | [] => []
  | e :: rest =>
    if e.id = targetId then { e with text := val } :: rest
    else e :: setTextFirst targetId val rest

/-- The legacy fallback pass of `SvgRenderer.tsx` (lines 42–49): for every
`data` entry, overwrite the text content of the element with id
`val_<key>`, when one exists. -/
def legacyPass (data : List (String × String)) (elems : List DomElement) : List DomElement :=
  data.foldl (fun es kv => setTextFirst ("val_" ++ kv.1) kv.2 es) elems

/-- A component column descriptor from the configuration schema. -/
structure ComponentColumn where
  key : String
  label : String
  colType : Option String
  unit : Option String

/-- The shape of a parsed `config.yaml` as far as `fetchComponentData`
inspects it: `dataRows` is `some rows` exactly when the `data` field is an
array (`Array.isArray(config.data)`), and `columns` is the column list when
one is present.  A falsy parse result (`!config`) is `none` at the caller. -/
structure ParsedConfig where
  dataRows : Option (List (List (String × String)))
  columns : Option (List ComponentColumn)

/-- The three failure modes of `fetchComponentData`, by thrown message:
`fetchFailed` = "Failed to fetch component data …" (a missing resource),
`gotHtml` = "Failed to fetch config (got HTML) …",
`invalidFormat` = "Invalid configuration format …". -/
inductive LoadError where
  | fetchFailed
  | gotHtml
  | invalidFormat
deriving DecidableEq

/-- The check `configText.trim().startsWith('<!DOCTYPE') || configText.trim().startsWith('<html')`. -/
def htmlSniff (configText : String) : Bool :=
  leadsWith "<!DOCTYPE".data (trimJS configText).data ||
    leadsWith "<html".data (trimJS configText).data

/-- Function `fetchComponentData` from `dataLoader.ts` (lines 97–125), with the two
`fetch` results and the external `yaml.load` outcome passed in: throw on a
failed fetch, then on an HTML-looking config body, then on a falsy parse or
a non-array `data` field; otherwise return the config and the svg text. -/
def fetchComponentData (configOk svgOk : Bool) (configText svgText : String)
    (parsed : Option ParsedConfig) : Except LoadError (ParsedConfig × String) :=
  if !configOk || !svgOk then .error .fetchFailed
  else if htmlSniff configText then .error .gotHtml
  else
    match parsed with
    | none => .error .invalidFormat
    | some cfg => if cfg.dataRows.isSome then .ok (cfg, svgText) else .error .invalidFormat

/-- A well-formed placeholder key: non-empty, with no whitespace and no
brace characters (every key occurring in the catalog's configurations has
this shape). -/
abbrev goodKeyL (k : List Char) : Prop :=
  k ≠ [] ∧ ∀ c ∈ k, isSpaceChar c = false ∧ c ≠ '{' ∧ c ≠ '}'

/-- A run of whitespace characters. -/
abbrev wsRun (w : List Char) : Prop :=
  ∀ c ∈ w, isSpaceChar c = true

/-- A string without brace characters. -/
abbrev braceFree (l : List Char) : Prop :=
  ∀ c ∈ l, c ≠ '{' ∧ c ≠ '}'

/-- The character sequence of the placeholder `{{w1 key w2}}`. -/
def phL (key w1 w2 : List Char) : List Char :=
  '{' :: '{' :: (w1 ++ key ++ w2 ++ ['}', '}'])

/-- The placeholder `{{w1 key w2}}` as a string. -/
def placeholderS (w1 key w2 : String) : String :=
  "\x7b\x7b" ++ w1 ++ key ++ w2 ++ "\x7d\x7d"

/-! ## Basic equations for the replacement scanner -/

theorem replacePHAux_nil (key val : List Char) : replacePHAux key val [] = [] := by
  simp [replacePHAux]

theorem replacePHAux_cons_some {key : List Char} (val : List Char) {c : Char}
    {cs rest : List Char} (h : matchPH key (c :: cs) = some rest) :
    replacePHAux key val (c :: cs) = val ++ replacePHAux key val rest := by
  rw [replacePHAux]
  split
  · rename_i r h'
    rw [h] at h'
    injection h' with h''
    rw [h'']
  · rename_i h'
    rw [h] at h'
    cases h'

theorem replacePHAux_cons_none {key : List Char} (val : List Char) {c : Char} {cs : List Char}
    (h : matchPH key (c :: cs) = none) :
    replacePHAux key val (c :: cs) = c :: replacePHAux key val cs := by
  rw [replacePHAux]
  split
  · rename_i r h'
    rw [h] at h'
    cases h'
  · rfl

/-- A string with no occurrence of the placeholder pattern is returned
unchanged by the global replacement. -/
theorem replacePHAux_no_occurrence {key : List Char} (val : List Char) :
    ∀ {cs : List Char}, containsPH key cs = false → replacePHAux key val cs = cs := by
  intro cs
  induction cs with
  | nil => intro _; exact replacePHAux_nil _ _
  | cons c cs ih =>
    intro h
    simp only [containsPH, Bool.or_eq_false_iff] at h
    cases hm : matchPH key (c :: cs) with
    | some r => rw [hm] at h; simp at h
    | none => rw [replacePHAux_cons_none val hm, ih h.2]

/-! ## C6: empty or whitespace-only query returns the catalog itself -/

/-- C6: for every match predicate, catalog and query whose trim is empty,
`filteredCatalog` returns the catalog list itself. -/
theorem filteredCatalog_empty_query (matched : CatalogItem → Bool)
    (catalog : List CatalogItem) (q : String) (h : trimJS q = "") :
    filteredCatalog matched catalog q = catalog := by
  simp [filteredCatalog, h]

/-- Witness for `filteredCatalog_empty_query` at a whitespace-only query. -/
theorem filteredCatalog_empty_query_witness :
    trimJS "  " = "" ∧
      filteredCatalog (fun _ => false)
          [CatalogItem.mk "nuts" "Nuts" none (some [CatalogItem.mk "hex" "Hex" (some "nuts/hex") none])] "  " =
        [CatalogItem.mk "nuts" "Nuts" none (some [CatalogItem.mk "hex" "Hex" (some "nuts/hex") none])] :=
  ⟨rfl, filteredCatalog_empty_query _ _ _ rfl⟩

/-! ## C9: error behavior of the component loader -/

/-- C9 counterexample: a configuration whose `data` field is an empty array
and that has no `columns` at all is accepted by `fetchComponentData`,
although the claim demands a `FormatError` for configurations without a
non-empty row list and a column list. -/
theorem fetchComponentData_accepts_empty_rows :
    fetchComponentData true true "name: x" "<svg/>"
        (some { dataRows := some [], columns := none }) =
      .ok ({ dataRows := some [], columns := none }, "<svg/>") := rfl

/-- C9 (amended): the loader fails with the missing-resource error exactly
when one of the two fetches failed, and with the invalid-format error
exactly when both fetches succeeded, the config body does not look like an
HTML page, and the parsed configuration is falsy or its `data` field is not
an array.  Emptiness of the row list and presence of `columns` are not
checked. -/
theorem fetchComponentData_error_iff (configOk svgOk : Bool) (configText svgText : String)
    (parsed : Option ParsedConfig) :
    (fetchComponentData configOk svgOk configText svgText parsed = .error .fetchFailed
        ↔ (configOk = false ∨ svgOk = false)) ∧
    (fetchComponentData configOk svgOk configText svgText parsed = .error .invalidFormat
        ↔ configOk = true ∧ svgOk = true ∧ htmlSniff configText = false ∧
          (parsed = none ∨ ∃ cfg, parsed = some cfg ∧ cfg.dataRows = none)) := by
  cases configOk with
  | false => simp [fetchComponentData]
  | true =>
    cases svgOk with
    | false => simp [fetchComponentData]
    | true =>
      cases hs : htmlSniff configText with
      | true => simp [fetchComponentData, hs]
      | false =>
        cases parsed with
        | none => simp [fetchComponentData, hs]
        | some cfg =>
          cases hd : cfg.dataRows with
          | none => simp [fetchComponentData, hs, hd]
          | some rows => simp [fetchComponentData, hs, hd]

/-! ## C10: the legacy fallback rewrites only the first matching element -/

theorem setTextFirst_append_skip {t v : String} {pre : List DomElement}
    (l : List DomElement) (h : ∀ x ∈ pre, x.id ≠ t) :
    setTextFirst t v (pre ++ l) = pre ++ setTextFirst t v l := by
  induction pre with
  | nil => rfl
  | cons e es ih =>
    have he : e.id ≠ t := h e (by simp)
    simp only [List.cons_append, setTextFirst, if_neg he, List.append_eq]
    rw [ih (fun x hx => h x (by simp [hx]))]

theorem setTextFirst_no_target {t v : String} :
    ∀ {es : List DomElement}, (∀ x ∈ es, x.id ≠ t) → setTextFirst t v es = es := by
  intro es
  induction es with
  | nil => intro _; rfl
  | cons e rest ih =>
    intro h
    have he : e.id ≠ t := h e (by simp)
    simp only [setTextFirst, if_neg he]
    rw [ih (fun x hx => h x (by simp [hx]))]

/-- C10: in the legacy fallback, a key `k` overwrites the text of the first
element in document order whose id is `val_k`; every later element with the
same id keeps its text, and a document with no such element is unchanged. -/
theorem legacyPass_first_only (k v : String) (pre : List DomElement) (e : DomElement)
    (post : List DomElement) (hpre : ∀ x ∈ pre, x.id ≠ "val_" ++ k)
    (he : e.id = "val_" ++ k) :
    legacyPass [(k, v)] (pre ++ e :: post) = pre ++ { e with text := v } :: post ∧
    ∀ es : List DomElement, (∀ x ∈ es, x.id ≠ "val_" ++ k) → legacyPass [(k, v)] es = es := by
  constructor
  · show setTextFirst ("val_" ++ k) v (pre ++ e :: post) = _
    rw [setTextFirst_append_skip _ hpre]
    simp [setTextFirst, he]
  · intro es hes
    show setTextFirst ("val_" ++ k) v es = es
    exact setTextFirst_no_target hes

/-- Witness for `legacyPass_first_only`: only the first `val_H` element is
rewritten, the later duplicate keeps its text, and an id-free document is
unchanged. -/
theorem legacyPass_first_only_witness :
    legacyPass [("H", "5")] [⟨"x", "t0"⟩, ⟨"val_H", "old"⟩, ⟨"val_H", "old2"⟩] =
        [⟨"x", "t0"⟩, ⟨"val_H", "5"⟩, ⟨"val_H", "old2"⟩] ∧
      legacyPass [("H", "5")] [⟨"y", "t1"⟩] = [⟨"y", "t1"⟩] := by
  have h := legacyPass_first_only "H" "5" [⟨"x", "t0"⟩] ⟨"val_H", "old"⟩ [⟨"val_H", "old2"⟩]
    (by intro x hx; simp at hx; subst hx; decide) rfl
  exact ⟨h.1, h.2 [⟨"y", "t1"⟩] (by intro x hx; simp at hx; subst hx; decide)⟩

/-! ## Matching lemmas for the placeholder scanner -/

theorem stripLead_self_append (k x : List Char) : stripLead k (k ++ x) = some x := by
  induction k with
  | nil => rfl
  | cons a ks ih => simp [stripLead, ih]

theorem stripLead_append_cases {k j y res : List Char} (h : stripLead k (j ++ y) = some res) :
    (∃ j2, j = k ++ j2 ∧ res = j2 ++ y) ∨ (∃ t, k = j ++ t ∧ stripLead t y = some res) := by
  induction k generalizing j with
  | nil =>
    left
    refine ⟨j, rfl, ?_⟩
    simpa [stripLead] using h.symm
  | cons a ks ih =>
    cases j with
    | nil =>
      right
      exact ⟨a :: ks, rfl, by simpa using h⟩
    | cons b js =>
      simp only [List.cons_append, stripLead] at h
      split at h
      · rename_i hba
        subst hba
        rcases ih h with ⟨j2, hj, hres⟩ | ⟨t, ht, hs⟩
        · exact Or.inl ⟨j2, by rw [hj]; simp, hres⟩
        · exact Or.inr ⟨t, by rw [ht]; simp, hs⟩
      · cases h

theorem dropWhile_ws_append {w : List Char} (hw : wsRun w) (l : List Char) :
    (w ++ l).dropWhile isSpaceChar = l.dropWhile isSpaceChar := by
  induction w with
  | nil => rfl
  | cons c cs ih =>
    have hc : isSpaceChar c = true := hw c (by simp)
    simp only [List.cons_append, List.dropWhile_cons, hc, if_true]
    exact ih (fun x hx => hw x (by simp [hx]))

theorem dropWhile_not_ws_head {c : Char} (l : List Char) (hc : isSpaceChar c = false) :
    (c :: l).dropWhile isSpaceChar = c :: l := by
  simp [List.dropWhile_cons, hc]

theorem matchPH_head_not_brace {key : List Char} {c : Char} (l : List Char) (hc : c ≠ '{') :
    matchPH key (c :: l) = none := by
  cases l with
  | nil => rfl
  | cons c2 t =>
    simp only [matchPH]
    rw [if_neg (fun hand => hc hand.1)]

theorem matchPH_second_not_brace {key : List Char} (c1 : Char) {c2 : Char} (l : List Char)
    (hc : c2 ≠ '{') : matchPH key (c1 :: c2 :: l) = none := by
  simp only [matchPH]
  rw [if_neg (fun hand => hc hand.2)]

/-- Evaluation of the scanner on a string that starts with two opening
braces. -/
theorem matchPH_eval (key inner : List Char) :
    matchPH key ('{' :: '{' :: inner) =
      (match stripLead key (inner.dropWhile isSpaceChar) with
      | some r2 =>
        match r2.dropWhile isSpaceChar with
        | c3 :: c4 :: r4 => if c3 = '}' ∧ c4 = '}' then some r4 else none
        | _ => none
      | none => none) := by
  simp [matchPH]

theorem phL_append (key w1 w2 rest : List Char) :
    phL key w1 w2 ++ rest = '{' :: '{' :: (w1 ++ (key ++ (w2 ++ ('}' :: '}' :: rest)))) := by
  simp [phL]

/-- The first whitespace run and the key are consumed in front of a
well-formed key. -/
theorem dropWhile_ws_key {key w : List Char} (hk : goodKeyL key) (hw : wsRun w)
    (x : List Char) :
    (w ++ (key ++ x)).dropWhile isSpaceChar = key ++ x := by
  obtain ⟨kh, kt, rfl⟩ : ∃ kh kt, key = kh :: kt := by
    cases key with
    | nil => exact absurd rfl hk.1
    | cons kh kt => exact ⟨kh, kt, rfl⟩
  rw [dropWhile_ws_append hw]
  simp only [List.cons_append]
  exact dropWhile_not_ws_head _ ((hk.2 kh (by simp)).1)

/-- The scanner accepts the placeholder built from its own key. -/
theorem matchPH_at_ph {key w1 w2 : List Char} (hk : goodKeyL key) (h1 : wsRun w1)
    (h2 : wsRun w2) (rest : List Char) :
    matchPH key (phL key w1 w2 ++ rest) = some rest := by
  rw [phL_append, matchPH_eval]
  rw [dropWhile_ws_key hk h1, stripLead_self_append]
  show (match (w2 ++ ('}' :: '}' :: rest)).dropWhile isSpaceChar with
    | c3 :: c4 :: r4 => if c3 = '}' ∧ c4 = '}' then some r4 else none
    | _ => none) = some rest
  rw [dropWhile_ws_append h2]
  rw [dropWhile_not_ws_head ('}' :: rest) (by decide)]
  show (if '}' = '}' ∧ '}' = '}' then some rest else none) = some rest
  rw [if_pos ⟨rfl, rfl⟩]

/-- The scanner rejects a placeholder built from a different well-formed
key. -/
theorem matchPH_other_key {key j w1 w2 : List Char} (hkey : goodKeyL key) (hj : goodKeyL j)
    (hne : key ≠ j) (h1 : wsRun w1) (h2 : wsRun w2) (rest : List Char) :
    matchPH key (phL j w1 w2 ++ rest) = none := by
  rw [phL_append, matchPH_eval]
  rw [dropWhile_ws_key hj h1]
  cases hs : stripLead key (j ++ (w2 ++ ('}' :: '}' :: rest))) with
  | none => rfl
  | some r2 =>
    show (match r2.dropWhile isSpaceChar with
      | c3 :: c4 :: r4 => if c3 = '}' ∧ c4 = '}' then some r4 else none
      | _ => none) = none
    rcases stripLead_append_cases hs with ⟨j2, hj2, hres⟩ | ⟨t, ht, hst⟩
    · cases j2 with
      | nil => exact absurd (by simpa using hj2.symm) hne
      | cons c j2t =>
        have hcj : c ∈ j := by rw [hj2]; simp
        have hc : c ≠ '}' := (hj.2 c hcj).2.2
        have hcw : isSpaceChar c = false := (hj.2 c hcj).1
        rw [hres]
        simp only [List.cons_append]
        rw [dropWhile_not_ws_head _ hcw]
        cases hj2t : j2t ++ (w2 ++ ('}' :: '}' :: rest)) with
        | nil => simp at hj2t
        | cons d t2 =>
          show (if c = '}' ∧ d = '}' then some t2 else none) = none
          rw [if_neg (fun hand => hc hand.1)]
    · cases t with
      | nil => exact absurd (by simpa using ht) hne
      | cons c tt =>
        have hc : isSpaceChar c = false ∧ c ≠ '{' ∧ c ≠ '}' := by
          refine hkey.2 c ?_
          rw [ht]; simp
        exfalso
        cases w2 with
        | nil =>
          simp only [List.nil_append, stripLead] at hst
          rw [if_neg (Ne.symm hc.2.2)] at hst
          cases hst
        | cons s w2t =>
          have hsws : isSpaceChar s = true := h2 s (by simp)
          have hcs : c ≠ s := by
            intro hcs
            rw [hcs, hsws] at hc
            cases hc.1
          simp only [List.cons_append, stripLead] at hst
          rw [if_neg (fun hsc => hcs hsc.symm)] at hst
          cases hst

/-! ## Traversal lemmas: scanning past text and placeholders -/

theorem containsPH_append_no_brace {key l : List Char} (r : List Char)
    (hl : ∀ c ∈ l, c ≠ '{') :
    containsPH key (l ++ r) = containsPH key r := by
  induction l with
  | nil => rfl
  | cons c ls ih =>
    simp only [List.cons_append, containsPH]
    rw [matchPH_head_not_brace _ (hl c (by simp))]
    simp only [Option.isSome_none, Bool.false_or]
    exact ih (fun x hx => hl x (by simp [hx]))

theorem containsPH_no_brace {key l : List Char} (hl : ∀ c ∈ l, c ≠ '{') :
    containsPH key l = false := by
  calc containsPH key l = containsPH key (l ++ []) := by rw [List.append_nil]
    _ = containsPH key [] := containsPH_append_no_brace [] hl
    _ = false := rfl

/-- Every character of the inner part of a placeholder over a well-formed
key is distinct from an opening brace. -/
theorem ph_inner_no_brace {j w1 w2 : List Char} (hj : goodKeyL j) (h1 : wsRun w1)
    (h2 : wsRun w2) : ∀ c ∈ w1 ++ (j ++ (w2 ++ ['}', '}'])), c ≠ '{' := by
  intro c hcmem
  simp only [List.mem_append, List.mem_cons, List.not_mem_nil, or_false] at hcmem
  rcases hcmem with hcw | hcj | hcw | rfl | rfl
  · intro he
    subst he
    exact absurd (h1 _ hcw) (by decide)
  · exact (hj.2 c hcj).2.1
  · intro he
    subst he
    exact absurd (h2 _ hcw) (by decide)
  · decide
  · decide

theorem ph_inner_cons {j : List Char} (w1 w2 : List Char) (hj : goodKeyL j) :
    ∃ p0 pt, w1 ++ (j ++ (w2 ++ ['}', '}'])) = p0 :: pt := by
  cases hpc : w1 ++ (j ++ (w2 ++ ['}', '}'])) with
  | nil =>
    exfalso
    have : ('}' : Char) ∈ w1 ++ (j ++ (w2 ++ ['}', '}'])) := by simp
    rw [hpc] at this
    cases this
  | cons a b => exact ⟨a, b, rfl⟩

/-- Scanning past a placeholder that the key does not match. -/
theorem containsPH_ph_skip {key j w1 w2 : List Char} (rest : List Char) (hj : goodKeyL j)
    (h1 : wsRun w1) (h2 : wsRun w2)
    (hm : matchPH key (phL j w1 w2 ++ rest) = none) :
    containsPH key (phL j w1 w2 ++ rest) = containsPH key rest := by
  have hnb := ph_inner_no_brace hj h1 h2
  obtain ⟨p0, pt, hpart⟩ := ph_inner_cons w1 w2 hj
  have hx : phL j w1 w2 ++ rest
      = '{' :: '{' :: ((w1 ++ (j ++ (w2 ++ ['}', '}']))) ++ rest) := by
    simp [phL]
  rw [hx] at hm ⊢
  rw [hpart] at hm ⊢
  simp only [List.cons_append] at hm ⊢
  simp only [containsPH]
  rw [hm, matchPH_second_not_brace '{' _ (hnb p0 (by rw [hpart]; simp))]
  simp only [Option.isSome_none, Bool.false_or]
  have hnb' : ∀ c ∈ p0 :: pt, c ≠ '{' := by
    intro c hc
    exact hnb c (by rw [hpart]; exact hc)
  have := @containsPH_append_no_brace key (p0 :: pt) rest hnb'
  simpa using this

theorem replacePHAux_append_no_brace {key : List Char} (val : List Char) {l : List Char}
    (r : List Char) (hl : ∀ c ∈ l, c ≠ '{') :
    replacePHAux key val (l ++ r) = l ++ replacePHAux key val r := by
  induction l with
  | nil => rfl
  | cons c ls ih =>
    simp only [List.cons_append]
    rw [replacePHAux_cons_none val (matchPH_head_not_brace _ (hl c (by simp)))]
    rw [ih (fun x hx => hl x (by simp [hx]))]

/-- The replacement scanner walks over a placeholder its key does not
match, leaving it intact. -/
theorem replacePHAux_ph_skip {key j w1 w2 : List Char} (val rest : List Char)
    (hj : goodKeyL j) (h1 : wsRun w1) (h2 : wsRun w2)
    (hm : matchPH key (phL j w1 w2 ++ rest) = none) :
    replacePHAux key val (phL j w1 w2 ++ rest) = phL j w1 w2 ++ replacePHAux key val rest := by
  have hnb := ph_inner_no_brace hj h1 h2
  obtain ⟨p0, pt, hpart⟩ := ph_inner_cons w1 w2 hj
  have hx : phL j w1 w2 ++ rest
      = '{' :: '{' :: ((w1 ++ (j ++ (w2 ++ ['}', '}']))) ++ rest) := by
    simp [phL]
  rw [hx] at hm ⊢
  rw [hpart] at hm ⊢
  simp only [List.cons_append] at hm ⊢
  rw [replacePHAux_cons_none val hm]
  rw [replacePHAux_cons_none val
    (matchPH_second_not_brace '{' _ (hnb p0 (by rw [hpart]; simp)))]
  have hnb' : ∀ c ∈ p0 :: pt, c ≠ '{' := by
    intro c hc
    exact hnb c (by rw [hpart]; exact hc)
  have hskip := @replacePHAux_append_no_brace key val (p0 :: pt) rest hnb'
  simp only [List.cons_append] at hskip
  rw [hskip]
  have hx2 : phL j w1 w2 ++ replacePHAux key val rest
      = '{' :: '{' :: ((w1 ++ (j ++ (w2 ++ ['}', '}']))) ++ replacePHAux key val rest) := by
    simp [phL]
  rw [hx2, hpart]
  simp [List.cons_append]

/-! ## Composite scans over documents with two placeholders -/

theorem raw_key_ne (k : List Char) : k ++ ['_', 'r', 'a', 'w'] ≠ k := by
  intro h
  have := congrArg List.length h
  simp at this

theorem goodKeyL_raw {k : List Char} (hk : goodKeyL k) :
    goodKeyL (k ++ ['_', 'r', 'a', 'w']) := by
  refine ⟨by simp, ?_⟩
  intro c hc
  rcases List.mem_append.1 hc with h | h
  · exact hk.2 c h
  · simp only [List.mem_cons, List.not_mem_nil, or_false] at h
    rcases h with rfl | rfl | rfl | rfl <;> exact ⟨by decide, by decide, by decide⟩

/-- Replacing a key across a document that consists of plain text around
two placeholders of that key: both are replaced by the value. -/
theorem replace_two_ph {key w1 w2 w3 w4 pre mid post : List Char} (val : List Char)
    (hk : goodKeyL key) (h1 : wsRun w1) (h2 : wsRun w2) (h3 : wsRun w3) (h4 : wsRun w4)
    (hpre : ∀ c ∈ pre, c ≠ '{') (hmid : ∀ c ∈ mid, c ≠ '{') (hpost : ∀ c ∈ post, c ≠ '{') :
    replacePHAux key val (pre ++ (phL key w1 w2 ++ (mid ++ (phL key w3 w4 ++ post))))
      = pre ++ (val ++ (mid ++ (val ++ post))) := by
  rw [replacePHAux_append_no_brace val _ hpre]
  have hm1 := matchPH_at_ph hk h1 h2 (mid ++ (phL key w3 w4 ++ post))
  rw [phL_append] at hm1
  rw [phL_append key w1 w2]
  rw [replacePHAux_cons_some val hm1]
  rw [replacePHAux_append_no_brace val _ hmid]
  have hm2 := matchPH_at_ph hk h3 h4 post
  rw [phL_append] at hm2
  rw [phL_append key w3 w4]
  rw [replacePHAux_cons_some val hm2]
  rw [replacePHAux_no_occurrence val (containsPH_no_brace hpost)]

/-- A key that matches neither of a document's two placeholders occurs
nowhere in the document. -/
theorem containsPH_two_ph_none {key j1 j2 w1 w2 w3 w4 pre mid post : List Char}
    (hj1 : goodKeyL j1) (hj2 : goodKeyL j2)
    (h1 : wsRun w1) (h2 : wsRun w2) (h3 : wsRun w3) (h4 : wsRun w4)
    (hpre : ∀ c ∈ pre, c ≠ '{') (hmid : ∀ c ∈ mid, c ≠ '{') (hpost : ∀ c ∈ post, c ≠ '{')
    (hm1 : matchPH key (phL j1 w1 w2 ++ (mid ++ (phL j2 w3 w4 ++ post))) = none)
    (hm2 : matchPH key (phL j2 w3 w4 ++ post) = none) :
    containsPH key (pre ++ (phL j1 w1 w2 ++ (mid ++ (phL j2 w3 w4 ++ post)))) = false := by
  rw [containsPH_append_no_brace _ hpre]
  rw [containsPH_ph_skip _ hj1 h1 h2 hm1]
  rw [containsPH_append_no_brace _ hmid]
  rw [containsPH_ph_skip _ hj2 h3 h4 hm2]
  exact containsPH_no_brace hpost

/-- Replacing a key across a document with one placeholder of that key and
one placeholder of a different key: the former is replaced, the latter is
left verbatim. -/
theorem replace_ph_then_skip {key j w1 w2 w3 w4 pre mid post : List Char} (val : List Char)
    (hk : goodKeyL key) (hj : goodKeyL j)
    (h1 : wsRun w1) (h2 : wsRun w2) (h3 : wsRun w3) (h4 : wsRun w4)
    (hpre : ∀ c ∈ pre, c ≠ '{') (hmid : ∀ c ∈ mid, c ≠ '{') (hpost : ∀ c ∈ post, c ≠ '{')
    (hm2 : matchPH key (phL j w3 w4 ++ post) = none) :
    replacePHAux key val (pre ++ (phL key w1 w2 ++ (mid ++ (phL j w3 w4 ++ post))))
      = pre ++ (val ++ (mid ++ (phL j w3 w4 ++ post))) := by
  rw [replacePHAux_append_no_brace val _ hpre]
  have hm1 := matchPH_at_ph hk h1 h2 (mid ++ (phL j w3 w4 ++ post))
  rw [phL_append] at hm1
  rw [phL_append key w1 w2]
  rw [replacePHAux_cons_some val hm1]
  rw [replacePHAux_append_no_brace val _ hmid]
  rw [replacePHAux_ph_skip val post hj h3 h4 hm2]
  rw [replacePHAux_no_occurrence val (containsPH_no_brace hpost)]

/-! ## String-level glue -/

theorem placeholderS_data (w1 k w2 : String) :
    (placeholderS w1 k w2).data = phL k.data w1.data w2.data := by
  show ("\x7b\x7b" ++ w1 ++ k ++ w2 ++ "\x7d\x7d").data = _
  simp only [String.data_append, phL]
  simp

theorem raw_data (k : String) : (k ++ "_raw").data = k.data ++ ['_', 'r', 'a', 'w'] := by
  simp only [String.data_append]

theorem replacePH_data (key val doc : String) :
    (replacePH key val doc).data = replacePHAux key.data val.data doc.data := rfl

theorem replacePH_id {key val doc : String} (h : containsPH key.data doc.data = false) :
    replacePH key val doc = doc := by
  apply String.ext
  rw [replacePH_data, replacePHAux_no_occurrence _ h]

/-! ## C3, C4, C7: the substitution engine -/

theorem braceFree_fst {l : List Char} (h : braceFree l) : ∀ c ∈ l, c ≠ '{' :=
  fun c hc => (h c hc).1

/-- C3: in a document of plain text around two display placeholders
`{{ key }}` (with arbitrary whitespace inside the braces), rendering
replaces every occurrence by the display value, which is the value string
followed by one space and the unit exactly when a non-empty unit is
declared for the key, and the bare value string otherwise. -/
theorem renderSvg_display_form (k v w1 w2 w3 w4 pre mid post : String)
    (units : List (String × String))
    (hk : goodKeyL k.data)
    (h1 : wsRun w1.data) (h2 : wsRun w2.data) (h3 : wsRun w3.data) (h4 : wsRun w4.data)
    (hpre : braceFree pre.data) (hmid : braceFree mid.data) (hpost : braceFree post.data) :
    renderSvg [(k, v)] units
        (pre ++ (placeholderS w1 k w2 ++ (mid ++ (placeholderS w3 k w4 ++ post)))) =
      pre ++ (displayValueOf units k v ++ (mid ++ (displayValueOf units k v ++ post))) ∧
    (∀ u, lookupStr units k = some u → u ≠ "" →
      displayValueOf units k v = v ++ " " ++ u) ∧
    (lookupStr units k = none → displayValueOf units k v = v) ∧
    (lookupStr units k = some "" → displayValueOf units k v = v) := by
  have hdoc : (pre ++ (placeholderS w1 k w2 ++ (mid ++ (placeholderS w3 k w4 ++ post)))).data
      = pre.data ++ (phL k.data w1.data w2.data ++
          (mid.data ++ (phL k.data w3.data w4.data ++ post.data))) := by
    simp only [String.data_append, placeholderS_data]
  refine ⟨?_, ?_, ?_, ?_⟩
  · have hfold : renderSvg [(k, v)]
        units (pre ++ (placeholderS w1 k w2 ++ (mid ++ (placeholderS w3 k w4 ++ post))))
        = applyEntry units
            (pre ++ (placeholderS w1 k w2 ++ (mid ++ (placeholderS w3 k w4 ++ post)))) k v := rfl
    rw [hfold]
    unfold applyEntry
    have hraw : replacePH (k ++ "_raw") v
        (pre ++ (placeholderS w1 k w2 ++ (mid ++ (placeholderS w3 k w4 ++ post))))
        = pre ++ (placeholderS w1 k w2 ++ (mid ++ (placeholderS w3 k w4 ++ post))) := by
      apply replacePH_id
      rw [raw_data, hdoc]
      exact containsPH_two_ph_none hk hk h1 h2 h3 h4
        (braceFree_fst hpre) (braceFree_fst hmid) (braceFree_fst hpost)
        (matchPH_other_key (goodKeyL_raw hk) hk (raw_key_ne _) h1 h2 _)
        (matchPH_other_key (goodKeyL_raw hk) hk (raw_key_ne _) h3 h4 _)
    rw [hraw]
    apply String.ext
    rw [replacePH_data, hdoc]
    rw [replace_two_ph _ hk h1 h2 h3 h4
      (braceFree_fst hpre) (braceFree_fst hmid) (braceFree_fst hpost)]
    simp only [String.data_append]
  · intro u hu hne
    simp [displayValueOf, hu, hne]
  · intro hn
    simp [displayValueOf, hn]
  · intro h0
    simp [displayValueOf, h0]

/-- Witness for `renderSvg_display_form`: both `{{ H }}` occurrences become
`5.5 mm` when the unit `mm` is declared. -/
theorem renderSvg_display_form_witness :
    renderSvg [("H", "5.5")] [("H", "mm")]
        ("a" ++ (placeholderS " " "H" " " ++ (" b " ++ (placeholderS "" "H" "" ++ "c")))) =
      "a" ++ ("5.5 mm" ++ (" b " ++ ("5.5 mm" ++ "c"))) :=
  (renderSvg_display_form "H" "5.5" " " " " "" "" "a" " b " "c" [("H", "mm")]
    (by decide) (by decide) (by decide) (by decide) (by decide)
    (by decide) (by decide) (by decide)).1

/-- C4: in a document of plain text around two raw placeholders
`{{ key_raw }}`, rendering replaces every occurrence by the bare value
string with no unit appended, even though a unit is declared for the key. -/
theorem renderSvg_raw_form (k v w1 w2 w3 w4 pre mid post : String)
    (units : List (String × String))
    (hk : goodKeyL k.data)
    (h1 : wsRun w1.data) (h2 : wsRun w2.data) (h3 : wsRun w3.data) (h4 : wsRun w4.data)
    (hpre : braceFree pre.data) (hmid : braceFree mid.data) (hpost : braceFree post.data)
    (hv : braceFree v.data) :
    renderSvg [(k, v)] units
        (pre ++ (placeholderS w1 (k ++ "_raw") w2 ++
          (mid ++ (placeholderS w3 (k ++ "_raw") w4 ++ post)))) =
      pre ++ (v ++ (mid ++ (v ++ post))) := by
  have hdoc : (pre ++ (placeholderS w1 (k ++ "_raw") w2 ++
        (mid ++ (placeholderS w3 (k ++ "_raw") w4 ++ post)))).data
      = pre.data ++ (phL (k.data ++ ['_', 'r', 'a', 'w']) w1.data w2.data ++
          (mid.data ++ (phL (k.data ++ ['_', 'r', 'a', 'w']) w3.data w4.data ++ post.data))) := by
    simp only [String.data_append, placeholderS_data, raw_data]
  have hfold : renderSvg [(k, v)] units
      (pre ++ (placeholderS w1 (k ++ "_raw") w2 ++
        (mid ++ (placeholderS w3 (k ++ "_raw") w4 ++ post))))
      = applyEntry units
          (pre ++ (placeholderS w1 (k ++ "_raw") w2 ++
            (mid ++ (placeholderS w3 (k ++ "_raw") w4 ++ post)))) k v := rfl
  rw [hfold]
  unfold applyEntry
  have hdoc1 : (replacePH (k ++ "_raw") v
      (pre ++ (placeholderS w1 (k ++ "_raw") w2 ++
        (mid ++ (placeholderS w3 (k ++ "_raw") w4 ++ post))))).data
      = pre.data ++ (v.data ++ (mid.data ++ (v.data ++ post.data))) := by
    rw [replacePH_data, raw_data, hdoc]
    exact replace_two_ph _ (goodKeyL_raw hk) h1 h2 h3 h4
      (braceFree_fst hpre) (braceFree_fst hmid) (braceFree_fst hpost)
  apply String.ext
  rw [replacePH_data, hdoc1]
  have hall : ∀ c ∈ pre.data ++ (v.data ++ (mid.data ++ (v.data ++ post.data))), c ≠ '{' := by
    intro c hc
    simp only [List.mem_append] at hc
    rcases hc with h | h | h | h | h
    · exact (hpre c h).1
    · exact (hv c h).1
    · exact (hmid c h).1
    · exact (hv c h).1
    · exact (hpost c h).1
  rw [replacePHAux_no_occurrence _ (containsPH_no_brace hall)]
  simp only [String.data_append]

/-- Witness for `renderSvg_raw_form`: `{{H_raw}}` becomes the bare `5.5`
although the unit `mm` is declared for `H`. -/
theorem renderSvg_raw_form_witness :
    renderSvg [("H", "5.5")] [("H", "mm")]
        ("x" ++ (placeholderS "" ("H" ++ "_raw") "" ++
          ("y" ++ (placeholderS " " ("H" ++ "_raw") " " ++ "z")))) =
      "x" ++ ("5.5" ++ ("y" ++ ("5.5" ++ "z"))) :=
  renderSvg_raw_form "H" "5.5" "" "" " " " " "x" "y" "z" [("H", "mm")]
    (by decide) (by decide) (by decide) (by decide) (by decide)
    (by decide) (by decide) (by decide) (by decide)

/-- C7: the substitution engine is total and conservative.  First: a
document in which no entry's raw or display pattern occurs — in particular
any document rendered with an empty values mapping — is returned verbatim.
Second: a placeholder whose key is absent from the values mapping is left
untouched in the output while the present key's placeholders are
replaced. -/
theorem renderSvg_untouched_absent_keys :
    (∀ (data units : List (String × String)) (doc : String),
      (∀ kv ∈ data, containsPH (kv.1.data ++ ['_', 'r', 'a', 'w']) doc.data = false ∧
        containsPH kv.1.data doc.data = false) →
      renderSvg data units doc = doc) ∧
    (∀ (k v j w1 w2 w3 w4 pre mid post : String) (units : List (String × String)),
      goodKeyL k.data → goodKeyL j.data → j ≠ k →
      j.data ≠ k.data ++ ['_', 'r', 'a', 'w'] →
      wsRun w1.data → wsRun w2.data → wsRun w3.data → wsRun w4.data →
      braceFree pre.data → braceFree mid.data → braceFree post.data →
      renderSvg [(k, v)] units
          (pre ++ (placeholderS w1 k w2 ++ (mid ++ (placeholderS w3 j w4 ++ post)))) =
        pre ++ (displayValueOf units k v ++ (mid ++ (placeholderS w3 j w4 ++ post)))) := by
  constructor
  · intro data units doc h
    induction data with
    | nil => rfl
    | cons kv rest ih =>
      have hstep : renderSvg (kv :: rest) units doc
          = renderSvg rest units (applyEntry units doc kv.1 kv.2) := rfl
      have happ : applyEntry units doc kv.1 kv.2 = doc := by
        unfold applyEntry
        have hraw : replacePH (kv.1 ++ "_raw") kv.2 doc = doc := by
          apply replacePH_id
          rw [raw_data]
          exact (h kv (by simp)).1
        rw [hraw]
        exact replacePH_id (h kv (by simp)).2
      rw [hstep, happ]
      exact ih (fun kv' hkv' => h kv' (by simp [hkv']))
  · intro k v j w1 w2 w3 w4 pre mid post units hk hj hne hnraw h1 h2 h3 h4 hpre hmid hpost
    have hdoc : (pre ++ (placeholderS w1 k w2 ++ (mid ++ (placeholderS w3 j w4 ++ post)))).data
        = pre.data ++ (phL k.data w1.data w2.data ++
            (mid.data ++ (phL j.data w3.data w4.data ++ post.data))) := by
      simp only [String.data_append, placeholderS_data]
    have hfold : renderSvg [(k, v)] units
        (pre ++ (placeholderS w1 k w2 ++ (mid ++ (placeholderS w3 j w4 ++ post))))
        = applyEntry units
            (pre ++ (placeholderS w1 k w2 ++ (mid ++ (placeholderS w3 j w4 ++ post)))) k v := rfl
    rw [hfold]
    unfold applyEntry
    have hraw : replacePH (k ++ "_raw") v
        (pre ++ (placeholderS w1 k w2 ++ (mid ++ (placeholderS w3 j w4 ++ post))))
        = pre ++ (placeholderS w1 k w2 ++ (mid ++ (placeholderS w3 j w4 ++ post))) := by
      apply replacePH_id
      rw [raw_data, hdoc]
      exact containsPH_two_ph_none hk hj h1 h2 h3 h4
        (braceFree_fst hpre) (braceFree_fst hmid) (braceFree_fst hpost)
        (matchPH_other_key (goodKeyL_raw hk) hk (raw_key_ne _) h1 h2 _)
        (matchPH_other_key (goodKeyL_raw hk) hj (fun hd => hnraw hd.symm) h3 h4 _)
    rw [hraw]
    apply String.ext
    rw [replacePH_data, hdoc]
    have hkj : k.data ≠ j.data := fun hd => hne (String.ext hd.symm)
    rw [replace_ph_then_skip _ hk hj h1 h2 h3 h4
      (braceFree_fst hpre) (braceFree_fst hmid) (braceFree_fst hpost)
      (matchPH_other_key hk hj hkj h3 h4 _)]
    simp only [String.data_append, placeholderS_data]

/-- Witness for `renderSvg_untouched_absent_keys`: rendering `hello` with a
non-matching entry leaves it unchanged, and `{{W}}` survives while `{{H}}`
is replaced. -/
theorem renderSvg_untouched_absent_keys_witness :
    renderSvg [("Q", "9")] [] "hello" = "hello" ∧
    renderSvg [("H", "5")] [("H", "mm")] "{{H}} and {{W}}" = "5 mm and {{W}}" := by
  constructor
  · exact renderSvg_untouched_absent_keys.1 [("Q", "9")] [] "hello" (by decide)
  · exact renderSvg_untouched_absent_keys.2 "H" "5" "W" "" "" "" "" "" " and " "" [("H", "mm")]
      (by decide) (by decide) (by decide) (by decide) (by decide) (by decide)
      (by decide) (by decide) (by decide) (by decide) (by decide)

/-! ## Forest membership lemmas -/

theorem sizeOf_childList_lt {t : CatalogItem} {ts cs : List CatalogItem}
    (ht : t ∈ ts) (hc : t.children = some cs) : sizeOf cs < sizeOf ts := by
  have h1 : sizeOf t < sizeOf ts := List.sizeOf_lt_of_mem ht
  cases t with
  | mk i nm p c =>
    have hc' : c = some cs := hc
    subst hc'
    have h2 : sizeOf cs < sizeOf (CatalogItem.mk i nm p (some cs)) := by
      simp
      omega
    omega

theorem mem_forestNodes_self {t : CatalogItem} : ∀ {ts : List CatalogItem},
    t ∈ ts → t ∈ forestNodes ts := by
  intro ts
  induction ts with
  | nil => intro h; cases h
  | cons h rest ih =>
    intro hm
    rcases List.mem_cons.1 hm with rfl | hm'
    · cases t with
      | mk i nm p c =>
        cases c with
        | none => rw [forestNodes]; exact List.mem_cons_self _ _
        | some cs => rw [forestNodes]; exact List.mem_cons_self _ _
    · cases h with
      | mk i nm p c =>
        cases c with
        | none =>
          rw [forestNodes]
          exact List.mem_cons_of_mem _ (ih hm')
        | some cs =>
          rw [forestNodes]
          exact List.mem_cons_of_mem _ (List.mem_append_right _ (ih hm'))

theorem mem_forestNodes_child {t n : CatalogItem} : ∀ {ts : List CatalogItem},
    t ∈ ts → n ∈ forestNodes t.childList → n ∈ forestNodes ts := by
  intro ts
  induction ts with
  | nil => intro h; cases h
  | cons h rest ih =>
    intro hm hn
    rcases List.mem_cons.1 hm with rfl | hm'
    · cases t with
      | mk i nm p c =>
        cases c with
        | none =>
          simp [CatalogItem.childList, CatalogItem.children, forestNodes] at hn
        | some cs =>
          simp only [CatalogItem.childList, CatalogItem.children, Option.getD] at hn
          rw [forestNodes]
          exact List.mem_cons_of_mem _ (List.mem_append_left _ hn)
    · cases h with
      | mk i nm p c =>
        cases c with
        | none =>
          rw [forestNodes]
          exact List.mem_cons_of_mem _ (ih hm' hn)
        | some cs =>
          rw [forestNodes]
          exact List.mem_cons_of_mem _ (List.mem_append_right _ (ih hm' hn))

theorem forestNodes_cases {n : CatalogItem} : ∀ {ts : List CatalogItem},
    n ∈ forestNodes ts → ∃ t ∈ ts, n = t ∨ n ∈ forestNodes t.childList := by
  intro ts
  induction ts with
  | nil => intro h; rw [forestNodes] at h; cases h
  | cons h rest ih =>
    intro hn
    cases h with
    | mk i nm p c =>
      cases c with
      | none =>
        rw [forestNodes] at hn
        rcases List.mem_cons.1 hn with rfl | hn'
        · exact ⟨_, List.mem_cons_self _ _, Or.inl rfl⟩
        · obtain ⟨t, ht, hor⟩ := ih hn'
          exact ⟨t, List.mem_cons_of_mem _ ht, hor⟩
      | some cs =>
        rw [forestNodes] at hn
        rcases List.mem_cons.1 hn with rfl | hn'
        · exact ⟨_, List.mem_cons_self _ _, Or.inl rfl⟩
        · rcases List.mem_append.1 hn' with hcs | hrest
          · refine ⟨CatalogItem.mk i nm p (some cs), List.mem_cons_self _ _, Or.inr ?_⟩
            simpa [CatalogItem.childList, CatalogItem.children] using hcs
          · obtain ⟨t, ht, hor⟩ := ih hrest
            exact ⟨t, List.mem_cons_of_mem _ ht, hor⟩

/-! ## Case analysis of one level of `filterTree` -/

theorem filterTree_mem_cases {matched : CatalogItem → Bool} {n : CatalogItem} :
    ∀ {ts : List CatalogItem}, n ∈ filterTree matched ts →
    ∃ t ∈ ts, (t.children = none ∧ n = t ∧ matched t = true) ∨
      (∃ cs, t.children = some cs ∧ filterTree matched cs ≠ [] ∧
        n = CatalogItem.mk t.id t.name t.path (some (filterTree matched cs))) := by
  intro ts
  induction ts with
  | nil => intro h; rw [filterTree] at h; cases h
  | cons t rest ih =>
    intro h
    cases t with
    | mk i nm p c =>
      cases c with
      | some cs =>
        rw [filterTree] at h
        by_cases hlen : (filterTree matched cs).length > 0
        · rw [if_pos hlen] at h
          rcases List.mem_cons.1 h with rfl | h'
          · refine ⟨CatalogItem.mk i nm p (some cs), List.mem_cons_self _ _, Or.inr ?_⟩
            exact ⟨cs, rfl, by
              intro hnil
              rw [hnil] at hlen
              simp at hlen, rfl⟩
          · obtain ⟨t, ht, hp⟩ := ih h'
            exact ⟨t, List.mem_cons_of_mem _ ht, hp⟩
        · rw [if_neg hlen] at h
          obtain ⟨t, ht, hp⟩ := ih h
          exact ⟨t, List.mem_cons_of_mem _ ht, hp⟩
      | none =>
        rw [filterTree] at h
        by_cases hm : matched (CatalogItem.mk i nm p none) = true
        · rw [if_pos hm] at h
          rcases List.mem_cons.1 h with rfl | h'
          · exact ⟨CatalogItem.mk i nm p none, List.mem_cons_self _ _, Or.inl ⟨rfl, rfl, hm⟩⟩
          · obtain ⟨t, ht, hp⟩ := ih h'
            exact ⟨t, List.mem_cons_of_mem _ ht, hp⟩
        · rw [if_neg hm] at h
          obtain ⟨t, ht, hp⟩ := ih h
          exact ⟨t, List.mem_cons_of_mem _ ht, hp⟩

/-- Master invariant of the filtered forest: every childless node in it is
matched and is a node of the input forest, and every node with children is
a field-for-field copy of an input node whose children are the recursively
filtered (non-empty) children of that input node. -/
theorem filtered_forest_master (matched : CatalogItem → Bool) :
    ∀ (N : Nat) (ts : List CatalogItem), sizeOf ts < N →
      ∀ n, n ∈ forestNodes (filterTree matched ts) →
        (n.children = none → matched n = true ∧ n ∈ forestNodes ts) ∧
        (∀ cs, n.children = some cs →
          cs ≠ [] ∧
          ∃ m ∈ forestNodes ts, m.id = n.id ∧ m.name = n.name ∧ m.path = n.path ∧
            ∃ ocs, m.children = some ocs ∧ cs = filterTree matched ocs) := by
  intro N
  induction N with
  | zero => intro ts h; omega
  | succ N ihN =>
    intro ts hts n hmem
    obtain ⟨t', ht', hor⟩ := forestNodes_cases hmem
    obtain ⟨t, ht, hcase⟩ := filterTree_mem_cases ht'
    rcases hcase with ⟨hnone, heq, hmatch⟩ | ⟨ocs, hsome, hfcne, hshape⟩
    · rcases hor with rfl | hchild
      · subst heq
        constructor
        · intro _
          exact ⟨hmatch, mem_forestNodes_self ht⟩
        · intro cs hcs
          rw [hnone] at hcs
          cases hcs
      · exfalso
        rw [heq] at hchild
        cases t with
        | mk i nm p c =>
          have hcn : c = none := hnone
          subst hcn
          simp [CatalogItem.childList, CatalogItem.children, forestNodes] at hchild
    · have htcl : t.childList = ocs := by
        simp [CatalogItem.childList, hsome]
      rcases hor with rfl | hchild
      · subst hshape
        constructor
        · intro hn
          simp [CatalogItem.children] at hn
        · intro cs hcs
          have hfc : filterTree matched ocs = cs := by
            simpa [CatalogItem.children] using hcs
          subst hfc
          refine ⟨hfcne, t, mem_forestNodes_self ht, rfl, rfl, rfl, ocs, hsome, rfl⟩
      · have hcl : t'.childList = filterTree matched ocs := by
          rw [hshape]
          simp [CatalogItem.childList, CatalogItem.children]
        rw [hcl] at hchild
        have hlt : sizeOf ocs < N := by
          have := sizeOf_childList_lt ht hsome
          omega
        obtain ⟨c1, c2⟩ := ihN ocs hlt n hchild
        constructor
        · intro hn
          obtain ⟨hm, hmem'⟩ := c1 hn
          refine ⟨hm, mem_forestNodes_child ht ?_⟩
          rw [htcl]
          exact hmem'
        · intro cs hcs
          obtain ⟨hne, m, hmmem, hid, hname, hpath, ocs2, hocs2, hcseq⟩ := c2 cs hcs
          refine ⟨hne, m, mem_forestNodes_child ht ?_, hid, hname, hpath, ocs2, hocs2, hcseq⟩
          rw [htcl]
          exact hmmem

/-- A non-empty filtered forest contains a matched childless node. -/
theorem filtered_nonempty_has_leaf (matched : CatalogItem → Bool) :
    ∀ (N : Nat) (ts : List CatalogItem), sizeOf ts < N → filterTree matched ts ≠ [] →
      ∃ l ∈ forestNodes (filterTree matched ts), l.children = none ∧ matched l = true := by
  intro N
  induction N with
  | zero => intro ts h; omega
  | succ N ihN =>
    intro ts hts hne
    obtain ⟨t', ht'⟩ : ∃ t', t' ∈ filterTree matched ts := by
      cases hft : filterTree matched ts with
      | nil => exact absurd hft hne
      | cons a b => exact ⟨a, List.mem_cons_self _ _⟩
    obtain ⟨t, ht, hcase⟩ := filterTree_mem_cases ht'
    rcases hcase with ⟨hnone, heq, hmatch⟩ | ⟨ocs, hsome, hfcne, hshape⟩
    · refine ⟨t', mem_forestNodes_self ht', ?_, ?_⟩
      · rw [heq]
        exact hnone
      · rw [heq]
        exact hmatch
    · have hlt : sizeOf ocs < N := by
        have := sizeOf_childList_lt ht hsome
        omega
      obtain ⟨l, hlmem, hlch, hlm⟩ := ihN ocs hlt hfcne
      refine ⟨l, ?_, hlch, hlm⟩
      refine mem_forestNodes_child ht' ?_
      rw [hshape]
      simpa [CatalogItem.childList, CatalogItem.children] using hlmem

/-! ## C5 and C8: the filtered tree -/

/-- C5: in a filtered forest, every childless node is a match of the
scorer's match set; every node with children has non-empty children, a
matching descendant leaf, and its children are exactly the recursively
filtered children of an input node — never unmatched siblings. -/
theorem filterTree_matches (matched : CatalogItem → Bool) (ts : List CatalogItem)
    (n : CatalogItem) (h : n ∈ forestNodes (filterTree matched ts)) :
    (n.children = none → matched n = true) ∧
    (∀ cs, n.children = some cs →
      cs ≠ [] ∧
      (∃ l ∈ forestNodes cs, l.children = none ∧ matched l = true) ∧
      (∃ m ∈ forestNodes ts, m.id = n.id ∧
        ∃ ocs, m.children = some ocs ∧ cs = filterTree matched ocs)) := by
  have H := filtered_forest_master matched (sizeOf ts + 1) ts (by omega) n h
  constructor
  · intro hn
    exact (H.1 hn).1
  · intro cs hcs
    obtain ⟨hne, m, hm, hid, hname, hpath, ocs, hocs, hcseq⟩ := H.2 cs hcs
    refine ⟨hne, ?_, m, hm, hid, ocs, hocs, hcseq⟩
    obtain ⟨l, hlmem, hlch, hlm⟩ := filtered_nonempty_has_leaf matched (sizeOf ocs + 1) ocs
      (by omega) (by rw [← hcseq]; exact hne)
    refine ⟨l, ?_, hlch, hlm⟩
    rw [hcseq]
    exact hlmem

/-- C8: filtering is pure and shares leaves: every childless node of the
filtered forest is a node of the input forest itself (the same term, hence
the same fields), and every node with children agrees with an input node on
`id`, `name` and `path`, its children being the filtered children of that
node — folders are the only rebuilt nodes. -/
theorem filterTree_frame (matched : CatalogItem → Bool) (ts : List CatalogItem)
    (n : CatalogItem) (h : n ∈ forestNodes (filterTree matched ts)) :
    (n.children = none → n ∈ forestNodes ts) ∧
    (∀ cs, n.children = some cs →
      ∃ m ∈ forestNodes ts, m.id = n.id ∧ m.name = n.name ∧ m.path = n.path ∧
        ∃ ocs, m.children = some ocs ∧ cs = filterTree matched ocs) := by
  have H := filtered_forest_master matched (sizeOf ts + 1) ts (by omega) n h
  constructor
  · intro hn
    exact (H.1 hn).2
  · intro cs hcs
    exact (H.2 cs hcs).2

/-- Witness for `filterTree_matches` at a one-folder catalog and the
always-true match set, taking `n` to be the retained folder. -/
theorem filterTree_matches_witness :
    ((CatalogItem.mk "d" "D" none
        (some [CatalogItem.mk "x" "X" (some "d/x") none])).children = none →
      (fun _ => true) (CatalogItem.mk "d" "D" none
        (some [CatalogItem.mk "x" "X" (some "d/x") none])) = true) ∧
    (∀ cs, (CatalogItem.mk "d" "D" none
        (some [CatalogItem.mk "x" "X" (some "d/x") none])).children = some cs →
      cs ≠ [] ∧
      (∃ l ∈ forestNodes cs, l.children = none ∧ (fun _ => true) l = true) ∧
      (∃ m ∈ forestNodes [CatalogItem.mk "d" "D" none
          (some [CatalogItem.mk "x" "X" (some "d/x") none])],
        m.id = (CatalogItem.mk "d" "D" none
          (some [CatalogItem.mk "x" "X" (some "d/x") none])).id ∧
        ∃ ocs, m.children = some ocs ∧ cs = filterTree (fun _ => true) ocs)) :=
  filterTree_matches (fun _ => true)
    [CatalogItem.mk "d" "D" none (some [CatalogItem.mk "x" "X" (some "d/x") none])]
    (CatalogItem.mk "d" "D" none (some [CatalogItem.mk "x" "X" (some "d/x") none]))
    (by simp [filterTree, forestNodes])

/-- Witness for `filterTree_frame` at a one-folder catalog and the
always-true match set, taking `n` to be the retained leaf. -/
theorem filterTree_frame_witness :
    ((CatalogItem.mk "y" "Y" (some "g/y") none).children = none →
      CatalogItem.mk "y" "Y" (some "g/y") none ∈
        forestNodes [CatalogItem.mk "g" "G" none
          (some [CatalogItem.mk "y" "Y" (some "g/y") none])]) ∧
    (∀ cs, (CatalogItem.mk "y" "Y" (some "g/y") none).children = some cs →
      ∃ m ∈ forestNodes [CatalogItem.mk "g" "G" none
          (some [CatalogItem.mk "y" "Y" (some "g/y") none])],
        m.id = (CatalogItem.mk "y" "Y" (some "g/y") none).id ∧
        m.name = (CatalogItem.mk "y" "Y" (some "g/y") none).name ∧
        m.path = (CatalogItem.mk "y" "Y" (some "g/y") none).path ∧
        ∃ ocs, m.children = some ocs ∧ cs = filterTree (fun _ => true) ocs) :=
  filterTree_frame (fun _ => true)
    [CatalogItem.mk "g" "G" none (some [CatalogItem.mk "y" "Y" (some "g/y") none])]
    (CatalogItem.mk "y" "Y" (some "g/y") none)
    (by simp [filterTree, forestNodes])

/-! ## updateFirst / find? interaction -/

theorem find?_updateFirst_same {a : String} {g : CatalogItem → CatalogItem}
    (hg : ∀ x, (g x).id = x.id) :
    ∀ (l : List CatalogItem),
      (updateFirst (fun n => n.id == a) g l).find? (fun n => n.id == a)
        = (l.find? (fun n => n.id == a)).map g := by
  intro l
  induction l with
  | nil => rfl
  | cons x xs ih =>
    by_cases hx : x.id = a
    · have hpx : (x.id == a) = true := beq_iff_eq.mpr hx
      have hgx : ((g x).id == a) = true := beq_iff_eq.mpr (by rw [hg x]; exact hx)
      rw [updateFirst, if_pos hpx]
      rw [@List.find?_cons_of_pos _ (fun n => n.id == a) (g x) _ hgx,
        @List.find?_cons_of_pos _ (fun n => n.id == a) x _ hpx]
      rfl
    · have hpx : ¬((x.id == a) = true) := fun hc => hx (beq_iff_eq.mp hc)
      rw [updateFirst, if_neg hpx]
      rw [@List.find?_cons_of_neg _ (fun n => n.id == a) x _ hpx,
        @List.find?_cons_of_neg _ (fun n => n.id == a) x _ hpx]
      exact ih

theorem find?_updateFirst_ne {a b : String} {g : CatalogItem → CatalogItem}
    (hg : ∀ x, (g x).id = x.id) (hne : b ≠ a) :
    ∀ (l : List CatalogItem),
      (updateFirst (fun n => n.id == a) g l).find? (fun n => n.id == b)
        = l.find? (fun n => n.id == b) := by
  intro l
  induction l with
  | nil => rfl
  | cons x xs ih =>
    by_cases hx : x.id = a
    · have hpx : (x.id == a) = true := beq_iff_eq.mpr hx
      rw [updateFirst, if_pos hpx]
      have hgb : ¬(((g x).id == b) = true) := by
        intro hc
        exact hne (by rw [← beq_iff_eq.mp hc, hg x, hx])
      have hxb : ¬((x.id == b) = true) := by
        intro hc
        exact hne (by rw [← beq_iff_eq.mp hc, hx])
      rw [@List.find?_cons_of_neg _ (fun n => n.id == b) (g x) _ hgb,
        @List.find?_cons_of_neg _ (fun n => n.id == b) x _ hxb]
    · have hpx : ¬((x.id == a) = true) := fun hc => hx (beq_iff_eq.mp hc)
      rw [updateFirst, if_neg hpx]
      by_cases hxb : x.id = b
      · have hb : (x.id == b) = true := beq_iff_eq.mpr hxb
        rw [@List.find?_cons_of_pos _ (fun n => n.id == b) x _ hb,
          @List.find?_cons_of_pos _ (fun n => n.id == b) x _ hb]
      · have hb : ¬((x.id == b) = true) := fun hc => hxb (beq_iff_eq.mp hc)
        rw [@List.find?_cons_of_neg _ (fun n => n.id == b) x _ hb,
          @List.find?_cons_of_neg _ (fun n => n.id == b) x _ hb]
        exact ih

theorem setLeaf_id (f : String) (x : CatalogItem) : (setLeaf f x).id = x.id := by
  cases x
  rfl

/-! Definitional equations of the walk, stated once to avoid match
side-conditions. -/

theorem insertSegs_leaf_eq (f part : String) (items : List CatalogItem) :
    insertSegs f [part] items =
      (match items.find? (fun n => n.id == part) with
      | some _ => updateFirst (fun n => n.id == part) (setLeaf f) items
      | none => items ++ [CatalogItem.mk part (formatLabel part) (some f) none]) := rfl

theorem insertSegs_cons_eq (f part r : String) (rs : List String) (items : List CatalogItem) :
    insertSegs f (part :: r :: rs) items =
      (match items.find? (fun n => n.id == part) with
      | some _ =>
        updateFirst (fun n => n.id == part)
          (fun m => CatalogItem.mk m.id m.name m.path
            (some (insertSegs f (r :: rs) m.childList))) items
      | none =>
        items ++ [CatalogItem.mk part (formatLabel part) none
          (some (insertSegs f (r :: rs) []))]) := rfl

theorem followSegs_one_eq (items : List CatalogItem) (part : String) :
    followSegs items [part] = items.find? (fun n => n.id == part) := rfl

theorem followSegs_cons_eq (items : List CatalogItem) (part r : String) (rs : List String) :
    followSegs items (part :: r :: rs) =
      (match items.find? (fun n => n.id == part) with
      | none => none
      | some n => followSegs n.childList (r :: rs)) := rfl

theorem followSegs_nil_items : ∀ (segs : List String), followSegs [] segs = none
  | [] => rfl
  | [_] => rfl
  | _ :: _ :: _ => rfl

theorem updateFirst_length (p : CatalogItem → Bool) (g : CatalogItem → CatalogItem) :
    ∀ l, (updateFirst p g l).length = l.length := by
  intro l
  induction l with
  | nil => rfl
  | cons x xs ih =>
    rw [updateFirst]
    by_cases hx : p x = true
    · rw [if_pos hx]
      simp
    · rw [if_neg hx]
      simp [ih]

theorem insertSegs_ne_nil (f : String) :
    ∀ (segs : List String) (items : List CatalogItem), segs ≠ [] →
      insertSegs f segs items ≠ [] := by
  intro segs items hne
  cases segs with
  | nil => exact absurd rfl hne
  | cons part rest =>
    cases rest with
    | nil =>
      rw [insertSegs_leaf_eq]
      cases hf : items.find? (fun n => n.id == part) with
      | some n =>
        show updateFirst (fun n => n.id == part) (setLeaf f) items ≠ []
        have hmem := List.mem_of_find?_eq_some hf
        intro hnil
        have := updateFirst_length (fun n => n.id == part) (setLeaf f) items
        rw [hnil] at this
        cases items with
        | nil => cases hmem
        | cons x xs => simp at this
      | none =>
        show items ++ [_] ≠ []
        simp
    | cons r rs =>
      rw [insertSegs_cons_eq]
      cases hf : items.find? (fun n => n.id == part) with
      | some n =>
        show updateFirst (fun n => n.id == part) _ items ≠ []
        have hmem := List.mem_of_find?_eq_some hf
        intro hnil
        have := updateFirst_length (fun n => n.id == part)
          (fun m => CatalogItem.mk m.id m.name m.path
            (some (insertSegs f (r :: rs) m.childList))) items
        rw [hnil] at this
        cases items with
        | nil => cases hmem
        | cons x xs => simp at this
      | none =>
        show items ++ [_] ≠ []
        simp

/-! ## Inserting a path establishes its leaf -/

theorem followSegs_insert_self (f : String) :
    ∀ (segs : List String) (items : List CatalogItem), segs ≠ [] →
      ∃ m, followSegs (insertSegs f segs items) segs = some m ∧
        m.path = some f ∧ m.children = none := by
  intro segs
  induction segs with
  | nil => intro items h; exact absurd rfl h
  | cons part rest ih =>
    intro items _
    cases rest with
    | nil =>
      rw [insertSegs_leaf_eq]
      cases hf : items.find? (fun n => n.id == part) with
      | some n =>
        refine ⟨setLeaf f n, ?_, ?_, ?_⟩
        · show (updateFirst (fun n => n.id == part) (setLeaf f) items).find?
            (fun n => n.id == part) = some (setLeaf f n)
          rw [find?_updateFirst_same (setLeaf_id f), hf]
          rfl
        · cases n; rfl
        · cases n; rfl
      | none =>
        refine ⟨CatalogItem.mk part (formatLabel part) (some f) none, ?_, rfl, rfl⟩
        show (items ++ [CatalogItem.mk part (formatLabel part) (some f) none]).find?
          (fun n => n.id == part) = _
        rw [List.find?_append, hf]
        rw [@List.find?_cons_of_pos _ (fun n => n.id == part)
          (CatalogItem.mk part (formatLabel part) (some f) none) [] (beq_iff_eq.mpr rfl)]
        rfl
    | cons r rs =>
      rw [insertSegs_cons_eq]
      cases hf : items.find? (fun n => n.id == part) with
      | some n =>
        have hidg : ∀ x : CatalogItem,
            ((fun m => CatalogItem.mk m.id m.name m.path
              (some (insertSegs f (r :: rs) m.childList))) x).id = x.id := fun x => rfl
        obtain ⟨m, hm, hp, hc⟩ := ih n.childList (by simp)
        refine ⟨m, ?_, hp, hc⟩
        show followSegs (updateFirst (fun n => n.id == part)
          (fun m => CatalogItem.mk m.id m.name m.path
            (some (insertSegs f (r :: rs) m.childList))) items) (part :: r :: rs) = some m
        rw [followSegs_cons_eq]
        rw [find?_updateFirst_same hidg, hf]
        exact hm
      | none =>
        obtain ⟨m, hm, hp, hc⟩ := ih [] (by simp)
        refine ⟨m, ?_, hp, hc⟩
        show followSegs (items ++ [CatalogItem.mk part (formatLabel part) none
          (some (insertSegs f (r :: rs) []))]) (part :: r :: rs) = some m
        rw [followSegs_cons_eq]
        rw [List.find?_append, hf]
        rw [@List.find?_cons_of_pos _ (fun n => n.id == part)
          (CatalogItem.mk part (formatLabel part) none
            (some (insertSegs f (r :: rs) []))) [] (beq_iff_eq.mpr rfl)]
        exact hm

theorem segPre_cons_cons (a b : String) (as bs : List String) :
    segPre (a :: as) (b :: bs) = (a == b && segPre as bs) := rfl

theorem find?_append_single_ne {b : String} (node : CatalogItem) (items : List CatalogItem)
    (hid : node.id ≠ b) :
    (items ++ [node]).find? (fun n => n.id == b) = items.find? (fun n => n.id == b) := by
  rw [List.find?_append]
  have hn : List.find? (fun n => n.id == b) [node] = none := by
    rw [@List.find?_cons_of_neg _ (fun n => n.id == b) node []
      (fun hc => hid (beq_iff_eq.mp hc))]
    rfl
  rw [hn, Option.or_none]

/-! ## A fresh chain holds no other address -/

theorem followSegs_chain_none (f : String) :
    ∀ (qsegs psegs : List String), segPre psegs qsegs = false →
      followSegs (insertSegs f qsegs []) psegs = none := by
  intro qsegs
  induction qsegs with
  | nil =>
    intro psegs _
    exact followSegs_nil_items psegs
  | cons q1 qrest ih =>
    intro psegs hp
    cases qrest with
    | nil =>
      rw [insertSegs_leaf_eq]
      show followSegs [CatalogItem.mk q1 (formatLabel q1) (some f) none] psegs = none
      cases psegs with
      | nil => rfl
      | cons p1 prest =>
        cases prest with
        | nil =>
          rw [followSegs_one_eq]
          have hne : p1 ≠ q1 := by
            intro hc
            rw [segPre_cons_cons] at hp
            simp [hc, segPre] at hp
          rw [@List.find?_cons_of_neg _ (fun n => n.id == p1)
            (CatalogItem.mk q1 (formatLabel q1) (some f) none) []
            (fun hc => hne (beq_iff_eq.mp hc).symm)]
          rfl
        | cons p2 ps =>
          rw [followSegs_cons_eq]
          by_cases h1 : p1 = q1
          · subst h1
            rw [@List.find?_cons_of_pos _ (fun n => n.id == p1)
              (CatalogItem.mk p1 (formatLabel p1) (some f) none) [] (beq_iff_eq.mpr rfl)]
            show followSegs ([] : List CatalogItem) (p2 :: ps) = none
            exact followSegs_nil_items _
          · rw [@List.find?_cons_of_neg _ (fun n => n.id == p1)
              (CatalogItem.mk q1 (formatLabel q1) (some f) none) []
              (fun hc => h1 (beq_iff_eq.mp hc).symm)]
            rfl
    | cons q2 qs =>
      rw [insertSegs_cons_eq]
      show followSegs [CatalogItem.mk q1 (formatLabel q1) none
        (some (insertSegs f (q2 :: qs) []))] psegs = none
      cases psegs with
      | nil => rfl
      | cons p1 prest =>
        cases prest with
        | nil =>
          rw [followSegs_one_eq]
          have hne : p1 ≠ q1 := by
            intro hc
            rw [segPre_cons_cons] at hp
            simp [hc, segPre] at hp
          rw [@List.find?_cons_of_neg _ (fun n => n.id == p1)
            (CatalogItem.mk q1 (formatLabel q1) none (some (insertSegs f (q2 :: qs) []))) []
            (fun hc => hne (beq_iff_eq.mp hc).symm)]
          rfl
        | cons p2 ps =>
          rw [followSegs_cons_eq]
          by_cases h1 : p1 = q1
          · subst h1
            rw [@List.find?_cons_of_pos _ (fun n => n.id == p1)
              (CatalogItem.mk p1 (formatLabel p1) none (some (insertSegs f (q2 :: qs) []))) []
              (beq_iff_eq.mpr rfl)]
            have hp' : segPre (p2 :: ps) (q2 :: qs) = false := by
              rw [segPre_cons_cons] at hp
              simpa using hp
            show followSegs (insertSegs f (q2 :: qs) []) (p2 :: ps) = none
            exact ih (p2 :: ps) hp'
          · rw [@List.find?_cons_of_neg _ (fun n => n.id == p1)
              (CatalogItem.mk q1 (formatLabel q1) none (some (insertSegs f (q2 :: qs) []))) []
              (fun hc => h1 (beq_iff_eq.mp hc).symm)]
            rfl

/-! ## Inserting an unrelated path preserves an address -/

theorem followSegs_insert_other (f : String) :
    ∀ (qsegs : List String) (items : List CatalogItem) (psegs : List String),
      segPre psegs qsegs = false → segPre qsegs psegs = false →
      followSegs (insertSegs f qsegs items) psegs = followSegs items psegs := by
  intro qsegs
  induction qsegs with
  | nil => intro items psegs _ _; rfl
  | cons q1 qrest ih =>
    intro items psegs hpq hqp
    cases psegs with
    | nil => rfl
    | cons p1 prest =>
      by_cases hp1 : p1 = q1
      · subst hp1
        have hpq' : segPre prest qrest = false := by
          rw [segPre_cons_cons] at hpq
          simpa using hpq
        have hqp' : segPre qrest prest = false := by
          rw [segPre_cons_cons] at hqp
          simpa using hqp
        cases qrest with
        | nil => exact absurd hqp' (by simp [segPre])
        | cons q2 qs =>
          cases prest with
          | nil => exact absurd hpq' (by simp [segPre])
          | cons p2 ps =>
            have hidg : ∀ x : CatalogItem,
                ((fun m => CatalogItem.mk m.id m.name m.path
                  (some (insertSegs f (q2 :: qs) m.childList))) x).id = x.id := fun x => rfl
            rw [insertSegs_cons_eq]
            cases hf : items.find? (fun n => n.id == p1) with
            | some n =>
              show followSegs (updateFirst (fun n => n.id == p1)
                (fun m => CatalogItem.mk m.id m.name m.path
                  (some (insertSegs f (q2 :: qs) m.childList))) items) (p1 :: p2 :: ps)
                = followSegs items (p1 :: p2 :: ps)
              rw [followSegs_cons_eq, followSegs_cons_eq]
              rw [find?_updateFirst_same hidg, hf]
              show followSegs (insertSegs f (q2 :: qs) n.childList) (p2 :: ps)
                = followSegs n.childList (p2 :: ps)
              exact ih n.childList (p2 :: ps) hpq' hqp'
            | none =>
              show followSegs (items ++ [CatalogItem.mk p1 (formatLabel p1) none
                (some (insertSegs f (q2 :: qs) []))]) (p1 :: p2 :: ps)
                = followSegs items (p1 :: p2 :: ps)
              rw [followSegs_cons_eq, followSegs_cons_eq]
              rw [List.find?_append, hf]
              rw [@List.find?_cons_of_pos _ (fun n => n.id == p1)
                (CatalogItem.mk p1 (formatLabel p1) none (some (insertSegs f (q2 :: qs) []))) []
                (beq_iff_eq.mpr rfl)]
              show followSegs (insertSegs f (q2 :: qs) []) (p2 :: ps) = none
              exact followSegs_chain_none f (q2 :: qs) (p2 :: ps) hpq'
      · cases qrest with
        | nil =>
          rw [insertSegs_leaf_eq]
          cases hf : items.find? (fun n => n.id == q1) with
          | some n =>
            show followSegs (updateFirst (fun n => n.id == q1) (setLeaf f) items) (p1 :: prest)
              = followSegs items (p1 :: prest)
            cases prest with
            | nil =>
              rw [followSegs_one_eq, followSegs_one_eq]
              exact find?_updateFirst_ne (setLeaf_id f) hp1 items
            | cons p2 ps =>
              rw [followSegs_cons_eq, followSegs_cons_eq]
              rw [find?_updateFirst_ne (setLeaf_id f) hp1 items]
          | none =>
            show followSegs (items ++ [CatalogItem.mk q1 (formatLabel q1) (some f) none])
              (p1 :: prest) = followSegs items (p1 :: prest)
            have hfl := find?_append_single_ne
              (CatalogItem.mk q1 (formatLabel q1) (some f) none) items
              (fun hc => hp1 hc.symm)
            cases prest with
            | nil => rw [followSegs_one_eq, followSegs_one_eq, hfl]
            | cons p2 ps => rw [followSegs_cons_eq, followSegs_cons_eq, hfl]
        | cons q2 qs =>
          have hidg : ∀ x : CatalogItem,
              ((fun m => CatalogItem.mk m.id m.name m.path
                (some (insertSegs f (q2 :: qs) m.childList))) x).id = x.id := fun x => rfl
          rw [insertSegs_cons_eq]
          cases hf : items.find? (fun n => n.id == q1) with
          | some n =>
            show followSegs (updateFirst (fun n => n.id == q1)
              (fun m => CatalogItem.mk m.id m.name m.path
                (some (insertSegs f (q2 :: qs) m.childList))) items) (p1 :: prest)
              = followSegs items (p1 :: prest)
            cases prest with
            | nil =>
              rw [followSegs_one_eq, followSegs_one_eq]
              exact find?_updateFirst_ne hidg hp1 items
            | cons p2 ps =>
              rw [followSegs_cons_eq, followSegs_cons_eq]
              rw [find?_updateFirst_ne hidg hp1 items]
          | none =>
            show followSegs (items ++ [CatalogItem.mk q1 (formatLabel q1) none
              (some (insertSegs f (q2 :: qs) []))]) (p1 :: prest)
              = followSegs items (p1 :: prest)
            have hfl := find?_append_single_ne
              (CatalogItem.mk q1 (formatLabel q1) none (some (insertSegs f (q2 :: qs) []))) items
              (fun hc => hp1 hc.symm)
            cases prest with
            | nil => rw [followSegs_one_eq, followSegs_one_eq, hfl]
            | cons p2 ps => rw [followSegs_cons_eq, followSegs_cons_eq, hfl]

/-! ## Inserting an extension turns a proper prefix into a folder -/

theorem followSegs_insert_extension (f : String) :
    ∀ (psegs qsegs : List String) (items : List CatalogItem),
      segPre psegs qsegs = true → psegs ≠ [] → psegs ≠ qsegs →
      ∃ m, followSegs (insertSegs f qsegs items) psegs = some m ∧
        m.childList ≠ [] ∧
        (∀ m0, followSegs items psegs = some m0 → m.path = m0.path) := by
  intro psegs
  induction psegs with
  | nil => intro qsegs items _ hne _; exact absurd rfl hne
  | cons p1 prest ih =>
    intro qsegs items hpre _ hnedif
    cases qsegs with
    | nil => simp [segPre] at hpre
    | cons q1 qrest =>
      rw [segPre_cons_cons, Bool.and_eq_true] at hpre
      obtain ⟨hp1, hpre'⟩ := hpre
      have hp1' : p1 = q1 := beq_iff_eq.mp hp1
      subst hp1'
      cases prest with
      | nil =>
        cases qrest with
        | nil => exact absurd rfl hnedif
        | cons q2 qs =>
          have hidg : ∀ x : CatalogItem,
              ((fun m => CatalogItem.mk m.id m.name m.path
                (some (insertSegs f (q2 :: qs) m.childList))) x).id = x.id := fun x => rfl
          rw [insertSegs_cons_eq]
          cases hf : items.find? (fun n => n.id == p1) with
          | some n =>
            refine ⟨CatalogItem.mk n.id n.name n.path
              (some (insertSegs f (q2 :: qs) n.childList)), ?_, ?_, ?_⟩
            · show followSegs (updateFirst (fun n => n.id == p1)
                (fun m => CatalogItem.mk m.id m.name m.path
                  (some (insertSegs f (q2 :: qs) m.childList))) items) [p1] = _
              rw [followSegs_one_eq, find?_updateFirst_same hidg, hf]
              rfl
            · show insertSegs f (q2 :: qs) n.childList ≠ []
              exact insertSegs_ne_nil f _ _ (by simp)
            · intro m0 hm0
              rw [followSegs_one_eq, hf] at hm0
              injection hm0 with hm0'
              rw [← hm0']
              rfl
            | none =>
            refine ⟨CatalogItem.mk p1 (formatLabel p1) none
              (some (insertSegs f (q2 :: qs) [])), ?_, ?_, ?_⟩
            · show followSegs (items ++ [CatalogItem.mk p1 (formatLabel p1) none
                (some (insertSegs f (q2 :: qs) []))]) [p1] = _
              rw [followSegs_one_eq, List.find?_append, hf]
              rw [@List.find?_cons_of_pos _ (fun n => n.id == p1)
                (CatalogItem.mk p1 (formatLabel p1) none (some (insertSegs f (q2 :: qs) []))) []
                (beq_iff_eq.mpr rfl)]
              rfl
            · show insertSegs f (q2 :: qs) [] ≠ []
              exact insertSegs_ne_nil f _ _ (by simp)
            · intro m0 hm0
              rw [followSegs_one_eq, hf] at hm0
              cases hm0
      | cons p2 ps =>
        cases qrest with
        | nil => simp [segPre] at hpre'
        | cons q2 qs =>
          have hnedif' : (p2 :: ps) ≠ (q2 :: qs) := by
            intro h
            exact hnedif (by rw [h])
          have hidg : ∀ x : CatalogItem,
              ((fun m => CatalogItem.mk m.id m.name m.path
                (some (insertSegs f (q2 :: qs) m.childList))) x).id = x.id := fun x => rfl
          rw [insertSegs_cons_eq]
          cases hf : items.find? (fun n => n.id == p1) with
          | some n =>
            obtain ⟨m, hm, hcl, hpath⟩ := ih (q2 :: qs) n.childList hpre' (by simp) hnedif'
            refine ⟨m, ?_, hcl, ?_⟩
            · show followSegs (updateFirst (fun n => n.id == p1)
                (fun m => CatalogItem.mk m.id m.name m.path
                  (some (insertSegs f (q2 :: qs) m.childList))) items) (p1 :: p2 :: ps) = some m
              rw [followSegs_cons_eq, find?_updateFirst_same hidg, hf]
              show followSegs (insertSegs f (q2 :: qs) n.childList) (p2 :: ps) = some m
              exact hm
            · intro m0 hm0
              rw [followSegs_cons_eq, hf] at hm0
              exact hpath m0 hm0
          | none =>
            obtain ⟨m, hm, hcl, _⟩ := ih (q2 :: qs) [] hpre' (by simp) hnedif'
            refine ⟨m, ?_, hcl, ?_⟩
            · show followSegs (items ++ [CatalogItem.mk p1 (formatLabel p1) none
                (some (insertSegs f (q2 :: qs) []))]) (p1 :: p2 :: ps) = some m
              rw [followSegs_cons_eq, List.find?_append, hf]
              rw [@List.find?_cons_of_pos _ (fun n => n.id == p1)
                (CatalogItem.mk p1 (formatLabel p1) none (some (insertSegs f (q2 :: qs) []))) []
                (beq_iff_eq.mpr rfl)]
              show followSegs (insertSegs f (q2 :: qs) []) (p2 :: ps) = some m
              exact hm
            · intro m0 hm0
              rw [followSegs_cons_eq, hf] at hm0
              have hnone : (none : Option CatalogItem) = some m0 := hm0
              cases hnone

/-! ## Sibling-id uniqueness is an invariant of the builder -/

theorem uniqueIdsF_nil : uniqueIdsF [] = true := by
  simp [uniqueIdsF]

theorem uniqueIdsF_cons (t : CatalogItem) (rest : List CatalogItem) :
    uniqueIdsF (t :: rest)
      = (notMemId t.id rest && (uniqueIdsF t.childList && uniqueIdsF rest)) := by
  cases t with
  | mk i nm p c =>
    cases c with
    | none =>
      simp [uniqueIdsF, CatalogItem.childList, CatalogItem.children, CatalogItem.id]
    | some cs =>
      simp [uniqueIdsF, CatalogItem.childList, CatalogItem.children, CatalogItem.id]

theorem notMemId_updateFirst {g : CatalogItem → CatalogItem} (hg : ∀ x, (g x).id = x.id)
    (p : CatalogItem → Bool) (i : String) :
    ∀ l, notMemId i (updateFirst p g l) = notMemId i l := by
  intro l
  induction l with
  | nil => rfl
  | cons x xs ih =>
    rw [updateFirst]
    by_cases hx : p x = true
    · rw [if_pos hx, notMemId, notMemId, hg x]
    · rw [if_neg hx, notMemId, notMemId, ih]

theorem notMemId_append_single (i : String) (b : CatalogItem) :
    ∀ l, notMemId i (l ++ [b]) = (notMemId i l && (b.id != i)) := by
  intro l
  induction l with
  | nil => simp [notMemId]
  | cons x xs ih =>
    rw [List.cons_append, notMemId, notMemId, ih, Bool.and_assoc]

theorem uniqueIdsF_updateFirst {g : CatalogItem → CatalogItem} (hg : ∀ x, (g x).id = x.id)
    (hgc : ∀ x, uniqueIdsF x.childList = true → uniqueIdsF (g x).childList = true)
    (p : CatalogItem → Bool) :
    ∀ l, uniqueIdsF l = true → uniqueIdsF (updateFirst p g l) = true := by
  intro l
  induction l with
  | nil => intro h; exact h
  | cons x xs ih =>
    intro h
    rw [uniqueIdsF_cons] at h
    simp only [Bool.and_eq_true] at h
    obtain ⟨h1, h2, h3⟩ := h
    rw [updateFirst]
    by_cases hx : p x = true
    · rw [if_pos hx, uniqueIdsF_cons]
      simp only [Bool.and_eq_true]
      exact ⟨by rw [hg x]; exact h1, hgc x h2, h3⟩
    · rw [if_neg hx, uniqueIdsF_cons]
      simp only [Bool.and_eq_true]
      refine ⟨?_, h2, ih h3⟩
      rw [notMemId_updateFirst hg]
      exact h1

theorem uniqueIdsF_append_single (b : CatalogItem) :
    ∀ l, uniqueIdsF l = true → (∀ x ∈ l, x.id ≠ b.id) → uniqueIdsF b.childList = true →
      uniqueIdsF (l ++ [b]) = true := by
  intro l
  induction l with
  | nil =>
    intro _ _ hb
    rw [List.nil_append, uniqueIdsF_cons]
    simp only [Bool.and_eq_true]
    exact ⟨rfl, hb, uniqueIdsF_nil⟩
  | cons x xs ih =>
    intro h hne hb
    rw [uniqueIdsF_cons] at h
    simp only [Bool.and_eq_true] at h
    obtain ⟨h1, h2, h3⟩ := h
    rw [List.cons_append, uniqueIdsF_cons]
    simp only [Bool.and_eq_true]
    refine ⟨?_, h2, ih h3 (fun y hy => hne y (by simp [hy])) hb⟩
    rw [notMemId_append_single]
    simp only [Bool.and_eq_true]
    refine ⟨h1, ?_⟩
    exact bne_iff_ne.mpr (fun hc => hne x (by simp) hc.symm)

theorem uniqueIdsF_insert (f : String) :
    ∀ (segs : List String) (items : List CatalogItem),
      uniqueIdsF items = true → uniqueIdsF (insertSegs f segs items) = true := by
  intro segs
  induction segs with
  | nil => intro items h; exact h
  | cons part rest ih =>
    intro items h
    cases rest with
    | nil =>
      rw [insertSegs_leaf_eq]
      cases hf : items.find? (fun n => n.id == part) with
      | some n =>
        show uniqueIdsF (updateFirst (fun n => n.id == part) (setLeaf f) items) = true
        refine uniqueIdsF_updateFirst (setLeaf_id f) ?_ _ items h
        intro x _
        cases x with
        | mk i nm p c => exact uniqueIdsF_nil
      | none =>
        show uniqueIdsF
          (items ++ [CatalogItem.mk part (formatLabel part) (some f) none]) = true
        refine uniqueIdsF_append_single _ items h ?_ uniqueIdsF_nil
        intro x hx
        have hno := List.find?_eq_none.1 hf x hx
        intro hc
        exact hno (beq_iff_eq.mpr hc)
    | cons r rs =>
      rw [insertSegs_cons_eq]
      cases hf : items.find? (fun n => n.id == part) with
      | some n =>
        show uniqueIdsF (updateFirst (fun n => n.id == part)
          (fun m => CatalogItem.mk m.id m.name m.path
            (some (insertSegs f (r :: rs) m.childList))) items) = true
        refine uniqueIdsF_updateFirst ?_ ?_ _ items h
        · intro x
          rfl
        · intro x hx
          show uniqueIdsF (insertSegs f (r :: rs) x.childList) = true
          exact ih x.childList hx
      | none =>
        show uniqueIdsF (items ++ [CatalogItem.mk part (formatLabel part) none
          (some (insertSegs f (r :: rs) []))]) = true
        refine uniqueIdsF_append_single _ items h ?_ ?_
        · intro x hx
          have hno := List.find?_eq_none.1 hf x hx
          intro hc
          exact hno (beq_iff_eq.mpr hc)
        · show uniqueIdsF (insertSegs f (r :: rs) []) = true
          exact ih [] uniqueIdsF_nil

theorem uniqueIdsF_foldl (paths : List String) :
    ∀ items, uniqueIdsF items = true →
      uniqueIdsF (paths.foldl (fun items p => insertSegs p (segsOf p) items) items) = true := by
  induction paths with
  | nil => intro items h; exact h
  | cons p ps ih =>
    intro items h
    rw [List.foldl_cons]
    exact ih _ (uniqueIdsF_insert p _ items h)

theorem segsOf_ne_nil (p : String) : segsOf p ≠ [] := by
  have h : ∀ l, splitChars (fun c => c == '/') l ≠ [] := by
    intro l
    cases l with
    | nil => simp [splitChars]
    | cons c cs =>
      rw [splitChars]
      cases h2 : splitChars (fun c => c == '/') cs with
      | nil => simp
      | cons piece rest =>
        show (if (c == '/') = true then [] :: piece :: rest else (c :: piece) :: rest) ≠ []
        by_cases hc : ((c == '/') = true)
        · rw [if_pos hc]; simp
        · rw [if_neg hc]; simp
  intro hc
  exact h p.data (by simpa [segsOf] using hc)

theorem buildCatalog_append_single (paths : List String) (p : String) :
    buildCatalog (paths ++ [p]) = insertSegs p (segsOf p) (buildCatalog paths) := by
  simp [buildCatalog, List.foldl_append]

/-! ## C1: prefix-free path sets build exactly their leaves -/

/-- C1 counterexample: with the input set `{"a/b", "a"}` the later path `a`
(a strict prefix of the earlier one) turns the `a` node into a leaf and
deletes its children, so the path `a/b` no longer appears as a leaf
reachable by its segment ids. -/
theorem buildCatalog_prefix_drops_leaf :
    followSegs (buildCatalog ["a/b", "a"]) (segsOf "a/b") = none := rfl

/-- C1 (amended): for a segment-wise prefix-free set of paths, every input
path is reachable from the roots by following its raw segment ids and ends
in a leaf (`componentPath` = the full path, no `children`); sibling ids are
unique at every level, so that leaf is the only node at that address. -/
theorem buildCatalog_leaf_reachable (paths : List String)
    (hp : paths.Pairwise (fun p q =>
      segPre (segsOf p) (segsOf q) = false ∧ segPre (segsOf q) (segsOf p) = false)) :
    (∀ p ∈ paths, ∃ m, followSegs (buildCatalog paths) (segsOf p) = some m ∧
      m.path = some p ∧ m.children = none) ∧
    uniqueIdsF (buildCatalog paths) = true := by
  constructor
  · intro p hmem
    obtain ⟨l1, l2, rfl⟩ := List.append_of_mem hmem
    have hR : ∀ q ∈ l2, segPre (segsOf p) (segsOf q) = false ∧
        segPre (segsOf q) (segsOf p) = false := by
      have h2 := (List.pairwise_append.1 hp).2.1
      exact (List.pairwise_cons.1 h2).1
    have hbuild : buildCatalog (l1 ++ p :: l2)
        = l2.foldl (fun items q => insertSegs q (segsOf q) items)
            (insertSegs p (segsOf p) (buildCatalog l1)) := by
      simp [buildCatalog, List.foldl_append]
    rw [hbuild]
    obtain ⟨m, hm, hpath, hch⟩ :=
      followSegs_insert_self p (segsOf p) (buildCatalog l1) (segsOf_ne_nil p)
    refine ⟨m, ?_, hpath, hch⟩
    have hpres : ∀ (l2' : List String) (items : List CatalogItem),
        (∀ q ∈ l2', segPre (segsOf p) (segsOf q) = false ∧
          segPre (segsOf q) (segsOf p) = false) →
        followSegs items (segsOf p) = some m →
        followSegs (l2'.foldl (fun items q => insertSegs q (segsOf q) items) items)
          (segsOf p) = some m := by
      intro l2'
      induction l2' with
      | nil => intro items _ hcur; exact hcur
      | cons q qs ihq =>
        intro items hRq hcur
        rw [List.foldl_cons]
        apply ihq _ (fun x hx => hRq x (by simp [hx]))
        rw [followSegs_insert_other q (segsOf q) items (segsOf p)
          (hRq q (by simp)).1 (hRq q (by simp)).2]
        exact hcur
    exact hpres l2 _ hR hm
  · exact uniqueIdsF_foldl paths [] uniqueIdsF_nil

/-- Witness for `buildCatalog_leaf_reachable` on the spec's example
catalog. -/
theorem buildCatalog_leaf_reachable_witness :
    (∃ m, followSegs (buildCatalog ["screws/socket_head", "screws/hex_head", "nuts/hex"])
        (segsOf "nuts/hex") = some m ∧ m.path = some "nuts/hex" ∧ m.children = none) ∧
    uniqueIdsF (buildCatalog ["screws/socket_head", "screws/hex_head", "nuts/hex"]) = true := by
  have h := buildCatalog_leaf_reachable ["screws/socket_head", "screws/hex_head", "nuts/hex"]
    (by decide)
  exact ⟨h.1 "nuts/hex" (by simp), h.2⟩

/-! ## C2: leaf/folder resolution of ambiguous (prefix) inputs -/

/-- C2 counterexample: with the paths `a` then `a/b` the single root node
carries both `componentPath = "a"` and a non-empty child list — it is
simultaneously leaf-marked and a folder, contradicting the claim that no
node both carries a `componentPath` and has children. -/
theorem buildCatalog_node_both_leaf_and_folder :
    buildCatalog ["a", "a/b"]
      = [CatalogItem.mk "a" "A" (some "a") (some [CatalogItem.mk "b" "B" (some "a/b") none])] ∧
    (CatalogItem.mk "a" "A" (some "a")
      (some [CatalogItem.mk "b" "B" (some "a/b") none])).path ≠ none ∧
    (CatalogItem.mk "a" "A" (some "a")
      (some [CatalogItem.mk "b" "B" (some "a/b") none])).childList ≠ [] := by
  refine ⟨rfl, ?_, ?_⟩ <;> simp [CatalogItem.path, CatalogItem.childList, CatalogItem.children]

/-- C2 (amended): the last path processed wins for the node's `children`
field, which is what the UI uses to decide leaf versus folder: processing a
path last makes its node childless with `componentPath` set, and processing
an extension last gives the prefix node a non-empty child list; but a
componentPath set earlier is retained, so such a node carries both. -/
theorem buildCatalog_last_wins (paths : List String) (p q : String)
    (hpq : segPre (segsOf p) (segsOf q) = true) (hne : segsOf p ≠ segsOf q) :
    (∃ m, followSegs (buildCatalog (paths ++ [p])) (segsOf p) = some m ∧
      m.path = some p ∧ m.children = none) ∧
    (∃ m, followSegs (buildCatalog (paths ++ [q])) (segsOf p) = some m ∧
      m.childList ≠ [] ∧
      ∀ m0, followSegs (buildCatalog paths) (segsOf p) = some m0 → m.path = m0.path) := by
  constructor
  · rw [buildCatalog_append_single]
    exact followSegs_insert_self p (segsOf p) (buildCatalog paths) (segsOf_ne_nil p)
  · rw [buildCatalog_append_single]
    exact followSegs_insert_extension q (segsOf p) (segsOf q) (buildCatalog paths)
      hpq (segsOf_ne_nil p) hne

/-- Witness for `buildCatalog_last_wins` at `p = "a"`, `q = "a/b"` over the
prior catalog `["a/b"]`. -/
theorem buildCatalog_last_wins_witness :
    (∃ m, followSegs (buildCatalog (["a/b"] ++ ["a"])) (segsOf "a") = some m ∧
      m.path = some "a" ∧ m.children = none) ∧
    (∃ m, followSegs (buildCatalog (["a/b"] ++ ["a/b"])) (segsOf "a") = some m ∧
      m.childList ≠ [] ∧
      ∀ m0, followSegs (buildCatalog ["a/b"]) (segsOf "a") = some m0 → m.path = m0.path) :=
  buildCatalog_last_wins ["a/b"] "a" "a/b" (by decide) (by decide)

end SizeofSpec
